import Mathlib

/-
Verification of the predicate-based interface provider, the lazy merge
dispatch and the QualifiedBy qualifier of the antidote repository.

Shallow embedding conventions:
- Python types are modelled by natural-number tags (`ptype`), object
  identity by natural-number ids (`oid`); `isinstance` checks in the
  provider are modelled as exact type-tag equality (the provider claims
  never exercise subclass relationships).
- Machine state (the provider's interface dictionary, the dispatch's
  resolved map and pending deque) is passed explicitly.
- Fallible code returns `Option` or `Except`; Python early `return`
  statements become the corresponding constructors.
-/

namespace Antidote

/-! ## Predicates, weights and constraints

Embeds `antidote/extension/predicates/_provider.py` and the weight
handling of `register_implementation`.  A predicate instance is reduced
to its concrete type tag and the (pure) result of its `weight()` method.
-/

structure Pred (W : Type) where
  ptype : Nat
  weight : Option W
deriving Repr

/-- A constraint list, as in `ConstraintsAlias`: pairs of a predicate
type tag and an evaluation function over an optional predicate. -/
def Constraints (W : Type) : Type := List (Nat × (Option (Pred W) → Bool))

/-- Embeds `ImplementationNode` (`_provider.py`). -/
structure ImplementationNode (W : Type) (A : Type) where
  dependency : A
  predicates : List (Pred W)
  weight : Option W
  same_weight_as_left : Bool

/-- The weight comparison of `ImplementationNode.__lt__`, acting on the
optional weights: a `None` weight sorts below every present weight and
is never below another `None`. -/
def wLtB {W : Type} [LinearOrder W] (a b : Option W) : Bool :=
  match b with
  | none => false
  | some bw =>
    match a with
    | none => true
    | some aw => decide (aw < bw)

/-- Embeds `ImplementationNode.__lt__`. -/
def nodeLtB {W A : Type} [LinearOrder W]
    (a b : ImplementationNode W A) : Bool :=
  wLtB a.weight b.weight

/-- Inner loop of `ImplementationNode.match` for one `(tpe, constraint)`
pair: every predicate of that type must satisfy the constraint, and if
none is present the constraint is evaluated on `None`. -/
def constraintOk {W : Type} (preds : List (Pred W)) (tpe : Nat)
    (c : Option (Pred W) → Bool) : Bool :=
  let selected := preds.filter (fun p => p.ptype == tpe)
  if selected.isEmpty then c none else selected.all (fun p => c (some p))

/-- Embeds `ImplementationNode.match`, as a function of the node's
predicate list. -/
def predsMatch {W : Type} (preds : List (Pred W)) (cs : Constraints W) : Bool :=
  cs.all (fun tc => constraintOk preds tc.1 tc.2)

def nodeMatch {W A : Type} (n : ImplementationNode W A) (cs : Constraints W) : Bool :=
  predsMatch n.predicates cs

/-! ### Weight computation of `register_implementation`

The source computes `predicates[0].weight()`, returning early when it is
`None`, then folds `+` over the remaining predicates, returning early at
the first `None`.  `combinedWeight ps = none` models the early return
(no node is created); `combinedWeight ps = some w` models reaching the
node construction with `weight = w` (where `w = none` is the empty
predicate list case). -/

def sumWeightsLoop {W : Type} [Add W] (acc : W) : List (Pred W) → Option W
  | [] => some acc
  | p :: rest =>
    match p.weight with
    | none => none
    | some w => sumWeightsLoop (acc + w) rest

def combinedWeight {W : Type} [Add W] : List (Pred W) → Option (Option W)
  | [] => some none
  | p :: rest =>
    match p.weight with
    | none => none
    | some w => (sumWeightsLoop w rest).map some

/-- The predicates whose `weight()` method the loop of
`register_implementation` evaluates, in evaluation order: the head is
always evaluated, and evaluation stops at (and includes) the first
predicate whose weight is `None`. -/
def weightEvalTrace {W : Type} : List (Pred W) → List (Pred W)
  | [] => []
  | p :: rest => p :: (if p.weight.isSome then weightEvalTrace rest else [])

/-! ### `bisect.bisect_right`

Embedded as the CPython loop: `lo = 0; hi = len(a); while lo < hi:
mid = (lo+hi)//2; if x < a[mid]: hi = mid else: lo = mid+1; return lo`.
The fuel argument (`a.length + 1` at the entry point) bounds the number
of loop iterations; each iteration shrinks `hi - lo` by at least one, so
the fuel is never exhausted before `lo = hi`. -/

def bisectRightFuel {α : Type} (ltb : α → α → Bool) (a : List α) (x : α) :
    Nat → Nat → Nat → Nat
  | 0, lo, _ => lo
  | Nat.succ fuel, lo, hi =>
    if lo < hi then
      let mid := (lo + hi) / 2
      if ltb x (a.getD mid x) then bisectRightFuel ltb a x fuel lo mid
      else bisectRightFuel ltb a x fuel (mid + 1) hi
    else lo

def bisectRightB {α : Type} (ltb : α → α → Bool) (a : List α) (x : α) : Nat :=
  bisectRightFuel ltb a x (a.length + 1) 0 a.length

/-- Python `list.insert`: positions past the end append (our call sites
always have `i ≤ length`). -/
def listInsertAt {α : Type} : Nat → α → List α → List α
  | _, x, [] => [x]
  | 0, x, a :: l => x :: a :: l
  | Nat.succ j, x, a :: l => a :: listInsertAt j x l

/-! ## The interface provider -/

/-- The `InterfaceProvider.__implementations` dictionary, keyed by
interface type tags. -/
def ProviderState (W A : Type) : Type :=
  Nat → Option (List (ImplementationNode W A))

def emptyState (W A : Type) : ProviderState W A := fun _ => none

namespace InterfaceProvider

/-- Embeds `InterfaceProvider.register`: installs a fresh empty node
list for the interface (resetting any previous list). -/
def register {W A : Type} (st : ProviderState W A) (interface : Nat) :
    ProviderState W A :=
  fun j => if j = interface then some [] else st j

/-- Embeds `InterfaceProvider.register_implementation`.  Returns `none`
for the `KeyError` on an unknown interface (which in the source is only
reached after the weight computation, hence the early weight match). -/
def registerImplementation {W A : Type} [LinearOrder W] [Add W]
    (st : ProviderState W A) (interface : Nat) (dependency : A)
    (predicates : List (Pred W)) : Option (ProviderState W A) :=
  match combinedWeight predicates with
  | none => some st
  | some w =>
    let node : ImplementationNode W A :=
      ⟨dependency, predicates, w, false⟩
    match st interface with
    | none => none
    | some implementations =>
      let pos := bisectRightB nodeLtB implementations node
      let fl := decide (0 < pos) &&
        !(nodeLtB (implementations.getD (pos - 1) node) node)
      some (fun j =>
        if j = interface then
          some (listInsertAt pos { node with same_weight_as_left := fl }
            implementations)
        else st j)

end InterfaceProvider

/-- Total wrapper used in theorem statements: the defaulted result of
`registerImplementation`, which coincides with it whenever the call does
not raise `KeyError`. -/
def regImplD {W A : Type} [LinearOrder W] [Add W]
    (st : ProviderState W A) (interface : Nat) (dependency : A)
    (predicates : List (Pred W)) : ProviderState W A :=
  (InterfaceProvider.registerImplementation st interface dependency
    predicates).getD st

/-! ### Queries (`InterfaceProvider.maybe_provide`) -/

structure Query (W : Type) where
  interface : Nat
  constraints : Constraints W
  all : Bool

inductive DepValue (A : Type) where
  | many (vs : List A)
  | one (v : A)
deriving DecidableEq, Repr

/-- Exceptions of `maybe_provide`: `DuplicateDependencyError` carrying
the two conflicting dependency handles, plus the `StopIteration` that a
broken `same_weight_as_left` chain would surface. -/
inductive ProvideErr (A : Type) where
  | conflict (a b : A)
  | stopIteration
deriving DecidableEq, Repr

/-- The `while left_impl.same_weight_as_left` loop of `maybe_provide`:
`impl0` is the first match, `cur` the node whose flag is inspected and
`rest` what remains of the reversed iterator. -/
def tieCheck {W A : Type} (cs : Constraints W)
    (impl0 : ImplementationNode W A) :
    ImplementationNode W A → List (ImplementationNode W A) →
    Except (ProvideErr A) (ImplementationNode W A)
  | cur, rest =>
    if cur.same_weight_as_left then
      match rest with
      | [] => .error .stopIteration
      | l :: rest2 =>
        if nodeMatch l cs then .error (.conflict impl0.dependency l.dependency)
        else tieCheck cs impl0 l rest2
    else .ok impl0

/-- The single-result branch of `maybe_provide`, iterating the reversed
node list. -/
def singleLoop {W A : Type} (cs : Constraints W) :
    List (ImplementationNode W A) →
    Except (ProvideErr A) (Option (DepValue A))
  | [] => .ok none
  | impl :: rest =>
    if nodeMatch impl cs then
      match tieCheck cs impl impl rest with
      | .error e => .error e
      | .ok n => .ok (some (DepValue.one n.dependency))
    else singleLoop cs rest

/-- Embeds `InterfaceProvider.maybe_provide` on a `Query`;
`container.get(impl)` is modelled as yielding the node's dependency
handle. -/
def InterfaceProvider.maybeProvide {W A : Type} (st : ProviderState W A)
    (q : Query W) : Except (ProvideErr A) (Option (DepValue A)) :=
  match st q.interface with
  | none => .ok none
  | some implementations =>
    let rev := implementations.reverse
    if q.all then
      .ok (some (DepValue.many
        ((rev.filter (fun impl => nodeMatch impl q.constraints)).map
          (fun impl => impl.dependency))))
    else singleLoop q.constraints rev

/-! ## The lazy merge dispatch (`antidote/_internal/dispatch.py`) -/

/-- Python `dict.get` over an insertion-ordered association list. -/
def dictGet {K V : Type} [DecidableEq K] : List (K × V) → K → Option V
  | [], _ => none
  | kv :: rest, k => if kv.1 = k then some kv.2 else dictGet rest k

/-- Python `dict` assignment: replaces the value of an existing key in
place, appends otherwise. -/
def dictSet {K V : Type} [DecidableEq K] : List (K × V) → K → V → List (K × V)
  | [], k, v => [(k, v)]
  | kv :: rest, k, v =>
    if kv.1 = k then (k, v) :: rest else kv :: dictSet rest k v

structure LazyDispatch (K F : Type) where
  name : String
  functions : List (K × F)
  lazy_registrations : List ((F → K) × F)

namespace LazyDispatch

/-- Embeds `LazyDispatch.register`: appends to the right end of the
pending deque, touching nothing else. -/
def register {K F : Type} (d : LazyDispatch K F) (key : F → K) (func : F) :
    LazyDispatch K F :=
  { d with lazy_registrations := d.lazy_registrations ++ [(key, func)] }

/-- The `while self.__lazy_registrations:` drain of `LazyDispatch.get`,
acting on the pending entries in pop order.  A duplicate resolved key is
the `RuntimeError`, reported as `(type, func, previous)`. -/
def drainLoop {K F : Type} [DecidableEq K] (fns : List (K × F)) :
    List ((F → K) × F) → Except (K × F × F) (List (K × F))
  | [] => .ok fns
  | kf :: rest =>
    let tpe := kf.1 kf.2
    match dictGet fns tpe with
    | some previous => .error (tpe, kf.2, previous)
    | none => drainLoop (fns ++ [(tpe, kf.2)]) rest

/-- The order in which the drain pops pending entries: `deque.pop()`
removes from the right end, so the pending list is processed newest
first. -/
def drainSeq {K F : Type} (d : LazyDispatch K F) : List ((F → K) × F) :=
  d.lazy_registrations.reverse

/-- Embeds `LazyDispatch.get`: drains every pending registration, then
looks the item up in the resolved map.  On success the pending deque is
empty. -/
def get {K F : Type} [DecidableEq K] (d : LazyDispatch K F) (item : K) :
    Except (K × F × F) (LazyDispatch K F × Option F) :=
  match drainLoop d.functions (drainSeq d) with
  | .error e => .error e
  | .ok fns => .ok (⟨d.name, fns, []⟩, dictGet fns item)

end LazyDispatch

/-! ## `register_implementation` of `antidote/lib/interface/_internal.py`

Only the predicate-deduplication loop and the hand-off to the provider
are modelled; the `isinstance`/subclass argument validation concerns
Python types outside the claims. -/

inductive RegistrationError (K F : Type) where
  | duplicateMerge (tpe : K) (func previous : F)
  | missingReducer (tpe : K)
  | unknownInterface

/-- The `distinct_predicates` loop: predicates are deduplicated by
concrete type; a repeated type consults the merge dispatch (draining
it), failing when no reducer exists, otherwise folding the two
predicates into one in place. -/
def dedupLoop {W : Type}
    (disp : LazyDispatch Nat (Pred W → Pred W → Pred W))
    (distinct : List (Nat × Pred W)) :
    List (Pred W) →
    Except (RegistrationError Nat (Pred W → Pred W → Pred W))
      (LazyDispatch Nat (Pred W → Pred W → Pred W) × List (Nat × Pred W))
  | [] => .ok (disp, distinct)
  | p :: rest =>
    let key := p.ptype
    match dictGet distinct key with
    | some previous =>
      match disp.get key with
      | .error e => .error (.duplicateMerge e.1 e.2.1 e.2.2)
      | .ok (_disp2, none) => .error (.missingReducer key)
      | .ok (disp2, some reducer) =>
        dedupLoop disp2 (dictSet distinct key (reducer previous p)) rest
    | none => dedupLoop disp (distinct ++ [(key, p)]) rest

/-- Embeds the core of `register_implementation` (`_internal.py`):
deduplicate/merge the predicates, then register the node with the
provider. -/
def libRegisterImplementation {W A : Type} [LinearOrder W] [Add W]
    (disp : LazyDispatch Nat (Pred W → Pred W → Pred W))
    (st : ProviderState W A) (interface : Nat) (implementation : A)
    (predicates : List (Pred W)) :
    Except (RegistrationError Nat (Pred W → Pred W → Pred W))
      (LazyDispatch Nat (Pred W → Pred W → Pred W) × ProviderState W A) :=
  match dedupLoop disp [] predicates with
  | .error e => .error e
  | .ok (disp2, distinct) =>
    match InterfaceProvider.registerImplementation st interface
        implementation (distinct.map Prod.snd) with
    | none => .error .unknownInterface
    | some st2 => .ok (disp2, st2)

/-! ## Registration operations and reachable states -/

inductive RegOp (W A : Type) where
  | regInterface (interface : Nat)
  | regImpl (interface : Nat) (dependency : A) (predicates : List (Pred W))

def applyOp {W A : Type} [LinearOrder W] [Add W] (st : ProviderState W A) :
    RegOp W A → Option (ProviderState W A)
  | .regInterface i => some (InterfaceProvider.register st i)
  | .regImpl i dep ps => InterfaceProvider.registerImplementation st i dep ps

def applyOps {W A : Type} [LinearOrder W] [Add W] :
    List (RegOp W A) → ProviderState W A → Option (ProviderState W A)
  | [], st => some st
  | op :: ops, st =>
    match applyOp st op with
    | none => none
    | some st2 => applyOps ops st2

/-- Whether a registration operation registers the given dependency
handle. -/
def opUses {W A : Type} (d : A) : RegOp W A → Prop
  | .regInterface _ => False
  | .regImpl _ dep _ => dep = d

/-- `d` appears nowhere as a node's dependency handle in the state. -/
def stateFresh {W A : Type} (st : ProviderState W A) (d : A) : Prop :=
  ∀ i L, st i = some L → ∀ n ∈ L, n.dependency ≠ d

/-- The dependency handle `d` occurs in a query outcome (in the returned
handles or in a conflict error). -/
def depInResult {A : Type}
    (r : Except (ProvideErr A) (Option (DepValue A))) (d : A) : Prop :=
  match r with
  | .ok none => False
  | .ok (some (.many vs)) => d ∈ vs
  | .ok (some (.one v)) => v = d
  | .error (.conflict a b) => a = d ∨ b = d
  | .error .stopIteration => False

/-! ## QualifiedBy (`antidote/lib/interface/qualifier.py`)

Qualifier objects are reduced to their CPython identity (`oid`) plus the
two validity checks of the constructor.  Identity comparison (`is`, and
grouping by `id`) becomes equality of `oid`; distinct live objects have
distinct ids. -/

structure Obj where
  oid : Nat
  isNoneObj : Bool
  isBuiltinInstance : Bool
deriving DecidableEq, Repr

/-- Sorted insertion, building `sorted(qualifiers, key=id)`. -/
def insertSortedNat (x : Nat) : List Nat → List Nat
  | [] => [x]
  | a :: l => if x ≤ a then x :: a :: l else a :: insertSortedNat x l

def sortNats : List Nat → List Nat
  | [] => []
  | a :: l => insertSortedNat a (sortNats l)

/-- `itertools.groupby` over a sorted key list, keeping one
representative per group: removes consecutive duplicates. -/
def dedupAdj : List Nat → List Nat
  | [] => []
  | [a] => [a]
  | a :: b :: l => if a = b then dedupAdj (b :: l) else a :: dedupAdj (b :: l)

structure QualifiedBy where
  qualifiers : List Nat
deriving DecidableEq, Repr

inductive QBErr where
  | valueError
  | typeError
deriving DecidableEq, Repr

/-- Embeds `QualifiedBy.__init__`: rejects an empty qualifier tuple,
rejects `None` and builtin-instance qualifiers, then stores the
id-sorted, identity-deduplicated qualifier list. -/
def qbInit (qs : List Obj) : Except QBErr QualifiedBy :=
  if qs.length = 0 then .error .valueError
  else if qs.any (fun q => q.isNoneObj || q.isBuiltinInstance) then
    .error .typeError
  else .ok ⟨dedupAdj (sortNats (qs.map Obj.oid))⟩

/-- The two-pointer loop of `QualifiedBy.evaluate`: advance both lists
on an identity match, otherwise only the predicate side; succeed when
the constraint side is exhausted. -/
def evalLoop : List Nat → List Nat → Bool
  | [], _ => true
  | _ :: _, [] => false
  | a :: as1, b :: bs =>
    if a = b then evalLoop as1 bs else evalLoop (a :: as1) bs

/-- Embeds `QualifiedBy.evaluate`. -/
def QualifiedBy.evaluate (q : QualifiedBy) (p : Option QualifiedBy) : Bool :=
  match p with
  | none => false
  | some pq =>
    if pq.qualifiers.length < q.qualifiers.length then false
    else evalLoop q.qualifiers pq.qualifiers

/-! ## Spec-modelled weight for empty predicate lists

The spec states that an implementation with zero predicates receives the
weight model's neutral value, computed by the weight model itself
(`of_neutral`).  The code under verification never calls any weight
model here; this definition records the spec's version for comparison. -/

/-- Modelled from the spec: the combined weight required by the spec's
§4.2 step 3, which differs from `combinedWeight` only on the empty
predicate list, where the spec requires the weight model's
`of_neutral` value rather than the registry's `None` sentinel. -/
def combinedWeightSpec {W : Type} [Add W] (ofNeutral : W)
    (ps : List (Pred W)) : Option (Option W) :=
  match ps with
  | [] => some (some ofNeutral)
  | _ => combinedWeight ps

/-- The `Weight.of_neutral` of the spec's own doctest weight model
(`Weight(0)` for an implementation without predicates), used as the
concrete weight model of counterexamples. -/
def natOfNeutral : Nat := 0

/-- Linear-scan upper bound: the number of leading elements `y` with
`ltb x y = false`.  On lists sorted for `ltb` this is the insertion
point `bisect_right` computes. -/
def ubLen {α : Type} (ltb : α → α → Bool) (x : α) : List α → Nat
  | [] => 0
  | y :: ys => if ltb x y then 0 else ubLen ltb x ys + 1

def setFlag {W A : Type} (n : ImplementationNode W A) (b : Bool) :
    ImplementationNode W A :=
  { n with same_weight_as_left := b }

def insertFrom {W A : Type} [LinearOrder W]
    (left n : ImplementationNode W A) :
    List (ImplementationNode W A) → List (ImplementationNode W A)
  | [] => [setFlag n (!nodeLtB left n)]
  | y :: ys =>
    if nodeLtB n y then setFlag n (!nodeLtB left n) :: y :: ys
    else y :: insertFrom y n ys

def insertNodeRec {W A : Type} [LinearOrder W]
    (n : ImplementationNode W A) :
    List (ImplementationNode W A) → List (ImplementationNode W A)
  | [] => [setFlag n false]
  | y :: ys =>
    if nodeLtB n y then setFlag n false :: y :: ys
    else y :: insertFrom y n ys

/-! # The provider's list invariant

Ascending weight order (so queries, which iterate the reversed list, see
non-increasing weights) together with correctness of every node's
`same_weight_as_left` flag: true iff a left neighbour exists and neither
node compares less-than the other. -/

def sortedAsc {W A : Type} [LinearOrder W]
    (L : List (ImplementationNode W A)) : Prop :=
  L.Pairwise (fun a b => nodeLtB b a = false)

def chainFlags {W A : Type} [LinearOrder W] :
    ImplementationNode W A → List (ImplementationNode W A) → Prop
  | _, [] => True
  | prev, b :: l =>
    b.same_weight_as_left = (!nodeLtB prev b && !nodeLtB b prev) ∧
      chainFlags b l

def flagsOk {W A : Type} [LinearOrder W] :
    List (ImplementationNode W A) → Prop
  | [] => True
  | a :: l => a.same_weight_as_left = false ∧ chainFlags a l

def Inv {W A : Type} [LinearOrder W]
    (L : List (ImplementationNode W A)) : Prop :=
  sortedAsc L ∧ flagsOk L

/-- Every interface's node list satisfies the provider invariant. -/
def InvAll {W A : Type} [LinearOrder W] (st : ProviderState W A) : Prop :=
  ∀ i L, st i = some L → Inv L

/-! ## Indexed build for ordering statements

To speak about registration order, implementations are registered under
interface `0` with their registration index as dependency handle. -/

def buildIndexedGo {W : Type} [LinearOrder W] [Add W]
    (st : ProviderState W Nat) (k : Nat) :
    List (List (Pred W)) → ProviderState W Nat
  | [] => st
  | ps :: rest => buildIndexedGo (regImplD st 0 k ps) (k + 1) rest

def buildIndexed {W : Type} [LinearOrder W] [Add W]
    (regs : List (List (Pred W))) : ProviderState W Nat :=
  buildIndexedGo (InterfaceProvider.register (emptyState W Nat) 0) 0 regs

/-- The node weight that registration `i` of `regs` produces (`none`
both when the index is out of range, when the implementation is dropped,
and when it carries the empty predicate list; the ordering statements
only apply it to members of the query result). -/
def regWeight {W : Type} [Add W] (regs : List (List (Pred W))) (i : Nat) :
    Option W :=
  match regs.get? i with
  | none => none
  | some ps => (combinedWeight ps).getD none

/-- Forgets the derived `same_weight_as_left` flag, for content
(multiset) statements about node lists. -/
def eraseFlag {W A : Type} (n : ImplementationNode W A) :
    ImplementationNode W A :=
  setFlag n false

/-- The nodes (up to flags) that the registrations starting at index `k`
contribute: registrations whose combined weight computation returns
early contribute nothing. -/
def mkNodes {W : Type} [Add W] :
    Nat → List (List (Pred W)) → List (ImplementationNode W Nat)
  | _, [] => []
  | k, ps :: rest =>
    match combinedWeight ps with
    | none => mkNodes (k + 1) rest
    | some w => ⟨k, ps, w, false⟩ :: mkNodes (k + 1) rest

/-- Among stored nodes (ascending order), ties are resolved by
registration index: a tied pair keeps the earlier-registered node to the
left. -/
def PairwiseIdx {W : Type} [LinearOrder W]
    (L : List (ImplementationNode W Nat)) : Prop :=
  L.Pairwise (fun a b => nodeLtB a b = false → a.dependency < b.dependency)

/-! ## Concrete sample data used to exercise the theorems -/

def wPred1 : Pred Nat := ⟨0, some 1⟩

def wPred2 : Pred Nat := ⟨1, some 1⟩

def wState1 : ProviderState Nat Nat :=
  regImplD (InterfaceProvider.register (emptyState Nat Nat) 0) 0 5 [wPred1]

def wState2 : ProviderState Nat Nat := regImplD wState1 0 7 [wPred2]

def wDispatch : LazyDispatch Nat Nat :=
  ⟨"merge", [], [(fun _ => 0, 1), (fun _ => 1, 2)]⟩

def wDupDispatch : LazyDispatch Nat Nat :=
  ⟨"merge", [], [(fun _ => 0, 1), (fun _ => 0, 2)]⟩

def wMerge : Pred Nat → Pred Nat → Pred Nat := fun _ _ => ⟨0, some 10⟩

def wMergeDispatch : LazyDispatch Nat (Pred Nat → Pred Nat → Pred Nat) :=
  ⟨"predicate_merge", [(0, wMerge)], []⟩

def wOps : List (RegOp Nat Nat) :=
  [RegOp.regInterface 0, RegOp.regImpl 0 5 [wPred1]]

def wStateC9 : ProviderState Nat Nat :=
  (applyOps wOps (emptyState Nat Nat)).getD (emptyState Nat Nat)

def wQB1 : List Obj := [⟨10, false, false⟩]

def wQB2 : List Obj := [⟨10, false, false⟩, ⟨4, false, false⟩]

/-! # Order facts about the weight comparison -/

theorem wLtB_irrefl {W : Type} [LinearOrder W] (a : Option W) :
    wLtB a a = false := by
  cases a with
  | none => rfl
  | some aw => simp [wLtB]

theorem wLtB_asymm {W : Type} [LinearOrder W] {a b : Option W}
    (h : wLtB a b = true) : wLtB b a = false := by
  cases a <;> cases b <;> simp [wLtB] at h ⊢
  exact le_of_lt h

theorem wLtB_lt_of_lt_of_nlt {W : Type} [LinearOrder W] {a b c : Option W}
    (h1 : wLtB a b = true) (h2 : wLtB c b = false) : wLtB a c = true := by
  cases b with
  | none => simp [wLtB] at h1
  | some bw =>
    cases c with
    | none => simp [wLtB] at h2
    | some cw =>
      cases a with
      | none => simp [wLtB]
      | some aw =>
        simp [wLtB] at h1 h2 ⊢
        exact lt_of_lt_of_le h1 h2

theorem wLtB_lt_of_nlt_of_lt {W : Type} [LinearOrder W] {a b c : Option W}
    (h1 : wLtB b a = false) (h2 : wLtB b c = true) : wLtB a c = true := by
  cases c with
  | none => simp [wLtB] at h2
  | some cw =>
    cases a with
    | none => simp [wLtB]
    | some aw =>
      cases b with
      | none => simp [wLtB] at h1
      | some bw =>
        simp [wLtB] at h1 h2 ⊢
        exact lt_of_le_of_lt h1 h2

theorem wLtB_nlt_trans {W : Type} [LinearOrder W] {a b c : Option W}
    (h1 : wLtB b a = false) (h2 : wLtB c b = false) : wLtB c a = false := by
  by_contra hne
  have hca : wLtB c a = true := by
    cases h : wLtB c a
    · exact absurd h hne
    · rfl
  exact absurd (wLtB_lt_of_lt_of_nlt hca h1) (by simp [h2])

section NodeOrder

variable {W A : Type} [LinearOrder W]

theorem nodeLtB_irrefl (a : ImplementationNode W A) : nodeLtB a a = false :=
  wLtB_irrefl a.weight

theorem nodeLtB_asymm {a b : ImplementationNode W A}
    (h : nodeLtB a b = true) : nodeLtB b a = false :=
  wLtB_asymm h

theorem nodeLtB_lt_of_lt_of_nlt {a b c : ImplementationNode W A}
    (h1 : nodeLtB a b = true) (h2 : nodeLtB c b = false) :
    nodeLtB a c = true :=
  wLtB_lt_of_lt_of_nlt h1 h2

theorem nodeLtB_lt_of_nlt_of_lt {a b c : ImplementationNode W A}
    (h1 : nodeLtB b a = false) (h2 : nodeLtB b c = true) :
    nodeLtB a c = true :=
  wLtB_lt_of_nlt_of_lt h1 h2

theorem nodeLtB_nlt_trans {a b c : ImplementationNode W A}
    (h1 : nodeLtB b a = false) (h2 : nodeLtB c b = false) :
    nodeLtB c a = false :=
  wLtB_nlt_trans h1 h2

end NodeOrder

/-! # Facts about `listInsertAt` and `List.getD` -/

theorem mem_listInsertAt {α : Type} (i : Nat) (x : α) (l : List α) (a : α) :
    a ∈ listInsertAt i x l ↔ a = x ∨ a ∈ l := by
  induction l generalizing i with
  | nil => cases i <;> simp [listInsertAt]
  | cons b l ih =>
    cases i with
    | zero => simp [listInsertAt]
    | succ j =>
      simp only [listInsertAt, List.mem_cons, ih j]
      tauto

theorem listInsertAt_perm {α : Type} (i : Nat) (x : α) (l : List α) :
    (listInsertAt i x l).Perm (x :: l) := by
  induction l generalizing i with
  | nil => cases i <;> simp [listInsertAt]
  | cons b l ih =>
    cases i with
    | zero => simp [listInsertAt]
    | succ j => exact ((ih j).cons b).trans (List.Perm.swap x b l)

theorem getD_congr {α : Type} {l : List α} {i : Nat} (d1 d2 : α)
    (h : i < l.length) : l.getD i d1 = l.getD i d2 := by
  induction l generalizing i with
  | nil => simp at h
  | cons b l ih =>
    cases i with
    | zero => rfl
    | succ j => simpa using ih (by simpa using h)

/-! # Characterisation of the embedded `bisect_right` -/

theorem ubLen_spec {α : Type} (ltb : α → α → Bool) (x : α) (l : List α) :
    ubLen ltb x l ≤ l.length ∧
    (∀ k, k < ubLen ltb x l → ltb x (l.getD k x) = false) ∧
    (ubLen ltb x l < l.length → ltb x (l.getD (ubLen ltb x l) x) = true) := by
  induction l with
  | nil => simp [ubLen]
  | cons y ys ih =>
    by_cases hy : ltb x y = true
    · refine ⟨by simp [ubLen, hy], ?_, ?_⟩
      · intro k hk
        simp [ubLen, hy] at hk
      · intro _
        simp [ubLen, hy]
    · have hy' : ltb x y = false := by simpa using hy
      obtain ⟨ih1, ih2, ih3⟩ := ih
      have hu : ubLen ltb x (y :: ys) = ubLen ltb x ys + 1 := by
        simp [ubLen, hy']
      refine ⟨?_, ?_, ?_⟩
      · rw [hu]
        simp only [List.length_cons]
        omega
      · intro k hk
        rw [hu] at hk
        cases k with
        | zero => simpa using hy'
        | succ j => simpa using ih2 j (by omega)
      · intro hlen
        rw [hu] at hlen ⊢
        simp only [List.length_cons] at hlen
        simpa using ih3 (by omega)

theorem bisectRightFuel_spec {α : Type} (ltb : α → α → Bool) (a : List α)
    (x : α)
    (mono : ∀ i j, i ≤ j → j < a.length → ltb x (a.getD i x) = true →
      ltb x (a.getD j x) = true) :
    ∀ fuel lo hi, lo ≤ hi → hi ≤ a.length → hi - lo ≤ fuel →
    (∀ k, k < lo → ltb x (a.getD k x) = false) →
    (∀ k, hi ≤ k → k < a.length → ltb x (a.getD k x) = true) →
    bisectRightFuel ltb a x fuel lo hi ≤ a.length ∧
    (∀ k, k < bisectRightFuel ltb a x fuel lo hi →
      ltb x (a.getD k x) = false) ∧
    (∀ k, bisectRightFuel ltb a x fuel lo hi ≤ k → k < a.length →
      ltb x (a.getD k x) = true) := by
  intro fuel
  induction fuel with
  | zero =>
    intro lo hi hlh hha _ hlow hhigh
    have heq : lo = hi := by omega
    subst heq
    exact ⟨by simpa [bisectRightFuel] using hha, hlow,
      fun k hk hkl => hhigh k hk hkl⟩
  | succ fuel ih =>
    intro lo hi hlh hha hfuel hlow hhigh
    by_cases hlt : lo < hi
    · have hmid1 : lo ≤ (lo + hi) / 2 := by omega
      have hmid2 : (lo + hi) / 2 < hi := by omega
      by_cases hx : ltb x (a.getD ((lo + hi) / 2) x) = true
      · have hred : bisectRightFuel ltb a x (fuel + 1) lo hi =
            bisectRightFuel ltb a x fuel lo ((lo + hi) / 2) := by
          simp [bisectRightFuel, hlt, hx, -List.getD_eq_getElem?_getD]
        rw [hred]
        exact ih lo ((lo + hi) / 2) hmid1 (by omega) (by omega) hlow
          (fun k hk hkl => mono ((lo + hi) / 2) k hk hkl hx)
      · have hx' : ltb x (a.getD ((lo + hi) / 2) x) = false := by
          simpa using hx
        have hred : bisectRightFuel ltb a x (fuel + 1) lo hi =
            bisectRightFuel ltb a x fuel ((lo + hi) / 2 + 1) hi := by
          simp [bisectRightFuel, hlt, hx', -List.getD_eq_getElem?_getD]
        rw [hred]
        refine ih ((lo + hi) / 2 + 1) hi (by omega) hha (by omega) ?_ hhigh
        intro k hk
        rcases Nat.lt_or_ge k lo with hklo | hklo
        · exact hlow k hklo
        · cases hcase : ltb x (a.getD k x) with
          | false => rfl
          | true =>
            have := mono k ((lo + hi) / 2) (by omega) (by omega) hcase
            rw [this] at hx'
            exact Bool.noConfusion hx'
    · have hred : bisectRightFuel ltb a x (fuel + 1) lo hi = lo := by
        simp [bisectRightFuel, hlt]
      have hetop : lo = hi := by omega
      subst hetop
      rw [hred]
      exact ⟨by omega, hlow, fun k hk hkl => hhigh k hk hkl⟩

theorem bisectRightB_eq_ubLen {α : Type} (ltb : α → α → Bool) (a : List α)
    (x : α)
    (mono : ∀ i j, i ≤ j → j < a.length → ltb x (a.getD i x) = true →
      ltb x (a.getD j x) = true) :
    bisectRightB ltb a x = ubLen ltb x a := by
  obtain ⟨hb1, hb2, hb3⟩ := bisectRightFuel_spec ltb a x mono (a.length + 1)
    0 a.length (Nat.zero_le _) le_rfl (by omega)
    (fun k hk => absurd hk (Nat.not_lt_zero k))
    (fun k hk hkl => absurd hkl (by omega))
  obtain ⟨hu1, hu2, hu3⟩ := ubLen_spec ltb x a
  have hbr : bisectRightB ltb a x =
      bisectRightFuel ltb a x (a.length + 1) 0 a.length := rfl
  rw [hbr]
  rcases Nat.lt_trichotomy
    (bisectRightFuel ltb a x (a.length + 1) 0 a.length) (ubLen ltb x a) with
    hlt | heq | hgt
  · have h1 := hu2 _ hlt
    have h2 := hb3 _ le_rfl (by omega)
    rw [h1] at h2
    exact absurd h2 (by simp)
  · exact heq
  · have h1 := hb2 _ hgt
    have h2 := hu3 (by omega)
    rw [h2] at h1
    exact absurd h1 (by simp)

/-! # Recursive form of the ordered insertion

`register_implementation` inserts with `bisect_right` and sets the new
node's `same_weight_as_left` flag from its left neighbour.  On the
sorted lists the provider maintains, this equals a one-pass recursive
insertion, which the invariant proofs use. -/

@[simp] theorem setFlag_dependency {W A : Type}
    (n : ImplementationNode W A) (b : Bool) :
    (setFlag n b).dependency = n.dependency := rfl

@[simp] theorem setFlag_predicates {W A : Type}
    (n : ImplementationNode W A) (b : Bool) :
    (setFlag n b).predicates = n.predicates := rfl

@[simp] theorem setFlag_weight {W A : Type}
    (n : ImplementationNode W A) (b : Bool) :
    (setFlag n b).weight = n.weight := rfl

@[simp] theorem setFlag_flag {W A : Type}
    (n : ImplementationNode W A) (b : Bool) :
    (setFlag n b).same_weight_as_left = b := rfl

@[simp] theorem nodeLtB_setFlag_left {W A : Type} [LinearOrder W]
    (n m : ImplementationNode W A) (b : Bool) :
    nodeLtB (setFlag n b) m = nodeLtB n m := rfl

@[simp] theorem nodeLtB_setFlag_right {W A : Type} [LinearOrder W]
    (n m : ImplementationNode W A) (b : Bool) :
    nodeLtB m (setFlag n b) = nodeLtB m n := rfl

theorem getD_eq_get {α : Type} {l : List α} {i : Nat} (d : α)
    (h : i < l.length) : l.getD i d = l.get ⟨i, h⟩ := by
  induction l generalizing i with
  | nil => simp at h
  | cons b l ih =>
    cases i with
    | zero => rfl
    | succ j => simpa using ih (by simpa using h)

theorem insertFrom_eq {W A : Type} [LinearOrder W]
    (n : ImplementationNode W A) :
    ∀ (ys : List (ImplementationNode W A)) (left : ImplementationNode W A),
    insertFrom left n ys = listInsertAt (ubLen nodeLtB n ys)
      (setFlag n (!nodeLtB ((left :: ys).getD (ubLen nodeLtB n ys) left) n))
      ys := by
  intro ys
  induction ys with
  | nil => intro left; simp [insertFrom, ubLen, listInsertAt]
  | cons y ys ih =>
    intro left
    by_cases hny : nodeLtB n y = true
    · simp [insertFrom, ubLen, hny, listInsertAt]
    · have hny' : nodeLtB n y = false := by simpa using hny
      have hu : ubLen nodeLtB n (y :: ys) = ubLen nodeLtB n ys + 1 := by
        simp [ubLen, hny']
      have hin : ubLen nodeLtB n ys < (y :: ys).length := by
        have := (ubLen_spec nodeLtB n ys).1
        simp only [List.length_cons]
        omega
      rw [hu]
      have hgd : ((left :: y :: ys).getD (ubLen nodeLtB n ys + 1) left) =
          ((y :: ys).getD (ubLen nodeLtB n ys) y) := by
        have h1 : ((left :: y :: ys).getD (ubLen nodeLtB n ys + 1) left) =
            ((y :: ys).getD (ubLen nodeLtB n ys) left) := by
          simp [-List.getD_eq_getElem?_getD]
        rw [h1]
        exact getD_congr left y hin
      rw [hgd]
      show insertFrom left n (y :: ys) =
        y :: listInsertAt (ubLen nodeLtB n ys)
          (setFlag n (!nodeLtB ((y :: ys).getD (ubLen nodeLtB n ys) y) n)) ys
      simp only [insertFrom, hny', Bool.false_eq_true, if_false]
      rw [ih y]

theorem insertAt_ub_eq {W A : Type} [LinearOrder W]
    (n : ImplementationNode W A) (L : List (ImplementationNode W A)) :
    listInsertAt (ubLen nodeLtB n L)
      (setFlag n (decide (0 < ubLen nodeLtB n L) &&
        !(nodeLtB (L.getD (ubLen nodeLtB n L - 1) n) n))) L =
    insertNodeRec n L := by
  cases L with
  | nil => simp [ubLen, listInsertAt, insertNodeRec]
  | cons y ys =>
    by_cases hny : nodeLtB n y = true
    · simp [ubLen, hny, listInsertAt, insertNodeRec]
    · have hny' : nodeLtB n y = false := by simpa using hny
      have hu : ubLen nodeLtB n (y :: ys) = ubLen nodeLtB n ys + 1 := by
        simp [ubLen, hny']
      have hin : ubLen nodeLtB n ys < (y :: ys).length := by
        have := (ubLen_spec nodeLtB n ys).1
        simp only [List.length_cons]
        omega
      rw [hu]
      have hgd : ((y :: ys).getD (ubLen nodeLtB n ys + 1 - 1) n) =
          ((y :: ys).getD (ubLen nodeLtB n ys) y) := getD_congr n y hin
      rw [hgd]
      show y :: listInsertAt (ubLen nodeLtB n ys)
          (setFlag n (decide (0 < ubLen nodeLtB n ys + 1) &&
            !(nodeLtB ((y :: ys).getD (ubLen nodeLtB n ys) y) n))) ys =
        insertNodeRec n (y :: ys)
      simp only [insertNodeRec, hny', Bool.false_eq_true, if_false]
      rw [insertFrom_eq n ys y]
      simp

theorem sorted_getD_mono {W A : Type} [LinearOrder W]
    {L : List (ImplementationNode W A)}
    (hs : L.Pairwise (fun a b => nodeLtB b a = false))
    (n : ImplementationNode W A) :
    ∀ i j, i ≤ j → j < L.length → nodeLtB n (L.getD i n) = true →
      nodeLtB n (L.getD j n) = true := by
  intro i j hij hj h
  rcases Nat.eq_or_lt_of_le hij with heq | hlt
  · subst heq; exact h
  · have hi : i < L.length := by omega
    have hrel := List.pairwise_iff_get.mp hs ⟨i, hi⟩ ⟨j, hj⟩ (by simpa using hlt)
    rw [getD_eq_get n hi] at h
    rw [getD_eq_get n hj]
    exact nodeLtB_lt_of_lt_of_nlt h hrel

/-- On a sorted node list, the `bisect_right`-based insertion of
`register_implementation` (position, flag and `list.insert`) coincides
with the recursive insertion. -/
theorem registerInsert_eq_insertNodeRec {W A : Type} [LinearOrder W]
    (n : ImplementationNode W A) (L : List (ImplementationNode W A))
    (hs : L.Pairwise (fun a b => nodeLtB b a = false)) :
    listInsertAt (bisectRightB nodeLtB L n)
      (setFlag n (decide (0 < bisectRightB nodeLtB L n) &&
        !(nodeLtB (L.getD (bisectRightB nodeLtB L n - 1) n) n))) L =
    insertNodeRec n L := by
  rw [bisectRightB_eq_ubLen nodeLtB L n (sorted_getD_mono hs n)]
  exact insertAt_ub_eq n L

theorem mem_insertFrom {W A : Type} [LinearOrder W]
    (n : ImplementationNode W A) :
    ∀ (ys : List (ImplementationNode W A)) (left m : ImplementationNode W A),
    m ∈ insertFrom left n ys → (∃ fl, m = setFlag n fl) ∨ m ∈ ys := by
  intro ys
  induction ys with
  | nil =>
    intro left m hm
    simp only [insertFrom, List.mem_singleton] at hm
    exact Or.inl ⟨_, hm⟩
  | cons y ys ih =>
    intro left m hm
    by_cases hny : nodeLtB n y = true
    · simp only [insertFrom, hny, if_true, List.mem_cons] at hm
      rcases hm with rfl | rfl | hm
      · exact Or.inl ⟨_, rfl⟩
      · exact Or.inr (by simp)
      · exact Or.inr (by simp [hm])
    · have hny' : nodeLtB n y = false := by simpa using hny
      simp only [insertFrom, hny', Bool.false_eq_true, if_false,
        List.mem_cons] at hm
      rcases hm with rfl | hm
      · exact Or.inr (by simp)
      · rcases ih y m hm with h | h
        · exact Or.inl h
        · exact Or.inr (by simp [h])

theorem insertFrom_perm {W A : Type} [LinearOrder W]
    (n : ImplementationNode W A) :
    ∀ (ys : List (ImplementationNode W A)) (left : ImplementationNode W A),
    ∃ fl, (insertFrom left n ys).Perm (setFlag n fl :: ys) := by
  intro ys
  induction ys with
  | nil => intro left; exact ⟨!nodeLtB left n, List.Perm.refl _⟩
  | cons y ys ih =>
    intro left
    by_cases hny : nodeLtB n y = true
    · refine ⟨!nodeLtB left n, ?_⟩
      simp [insertFrom, hny]
    · have hny' : nodeLtB n y = false := by simpa using hny
      obtain ⟨fl, hperm⟩ := ih y
      refine ⟨fl, ?_⟩
      simp only [insertFrom, hny', Bool.false_eq_true, if_false]
      exact (hperm.cons y).trans (List.Perm.swap (setFlag n fl) y ys)

theorem insertNodeRec_perm {W A : Type} [LinearOrder W]
    (n : ImplementationNode W A) (L : List (ImplementationNode W A)) :
    ∃ fl, (insertNodeRec n L).Perm (setFlag n fl :: L) := by
  cases L with
  | nil => exact ⟨false, List.Perm.refl _⟩
  | cons y ys =>
    by_cases hny : nodeLtB n y = true
    · exact ⟨false, by simp [insertNodeRec, hny]⟩
    · have hny' : nodeLtB n y = false := by simpa using hny
      obtain ⟨fl, hperm⟩ := insertFrom_perm n ys y
      refine ⟨fl, ?_⟩
      simp only [insertNodeRec, hny', Bool.false_eq_true, if_false]
      exact (hperm.cons y).trans (List.Perm.swap (setFlag n fl) y ys)

theorem insertFrom_inv {W A : Type} [LinearOrder W]
    (n : ImplementationNode W A) :
    ∀ (ys : List (ImplementationNode W A)) (left : ImplementationNode W A),
    nodeLtB n left = false → sortedAsc (left :: ys) → chainFlags left ys →
    sortedAsc (left :: insertFrom left n ys) ∧
      chainFlags left (insertFrom left n ys) := by
  intro ys
  induction ys with
  | nil =>
    intro left hnl hs _
    constructor
    · simp [insertFrom, sortedAsc, hnl]
    · simp [insertFrom, chainFlags, hnl]
  | cons y ys ih =>
    intro left hnl hs hf
    obtain ⟨hfy, hfys⟩ := hf
    have hs' := hs
    simp only [sortedAsc, List.pairwise_cons] at hs'
    obtain ⟨hleft, hy2, hrest⟩ := hs'
    by_cases hny : nodeLtB n y = true
    · have hlty : nodeLtB left y = true := nodeLtB_lt_of_nlt_of_lt hnl hny
      have hyflag : y.same_weight_as_left = false := by
        rw [hfy]
        simp [hlty]
      constructor
      · simp only [insertFrom, hny, if_true, sortedAsc, List.pairwise_cons]
        refine ⟨?_, ?_, hy2, hrest⟩
        · intro m hm
          rcases List.mem_cons.mp hm with rfl | hm
          · simpa using hnl
          · exact hleft m hm
        · intro m hm
          rcases List.mem_cons.mp hm with rfl | hm
          · simpa using nodeLtB_asymm hny
          · simpa using nodeLtB_asymm (nodeLtB_lt_of_lt_of_nlt hny (hy2 m hm))
      · simp only [insertFrom, hny, if_true, chainFlags]
        refine ⟨?_, ?_, hfys⟩
        · simp [hnl]
        · simp [hyflag, hny]
    · have hny' : nodeLtB n y = false := by simpa using hny
      have hs2 : sortedAsc (y :: ys) := (List.pairwise_cons.mp hs).2
      obtain ⟨ihs, ihf⟩ := ih y hny' hs2 hfys
      have ihs' := ihs
      simp only [sortedAsc, List.pairwise_cons] at ihs'
      obtain ⟨hyIns, hInsPair⟩ := ihs'
      constructor
      · simp only [insertFrom, hny', Bool.false_eq_true, if_false, sortedAsc,
          List.pairwise_cons]
        refine ⟨?_, hyIns, hInsPair⟩
        intro m hm
        rcases List.mem_cons.mp hm with rfl | hm
        · exact hleft m (by simp)
        · rcases mem_insertFrom n ys y m hm with ⟨fl, rfl⟩ | hm2
          · simpa using hnl
          · exact hleft m (by simp [hm2])
      · simp only [insertFrom, hny', Bool.false_eq_true, if_false, chainFlags]
        exact ⟨hfy, ihf⟩

theorem insertNodeRec_inv {W A : Type} [LinearOrder W]
    (n : ImplementationNode W A) (L : List (ImplementationNode W A))
    (h : Inv L) : Inv (insertNodeRec n L) := by
  obtain ⟨hs, hf⟩ := h
  cases L with
  | nil =>
    exact ⟨by simp [insertNodeRec, sortedAsc],
      by simp [insertNodeRec, flagsOk, chainFlags]⟩
  | cons y ys =>
    obtain ⟨hfy, hfys⟩ := hf
    have hs' := hs
    simp only [sortedAsc, List.pairwise_cons] at hs'
    obtain ⟨hy2, hrest⟩ := hs'
    by_cases hny : nodeLtB n y = true
    · constructor
      · simp only [insertNodeRec, hny, if_true, sortedAsc, List.pairwise_cons]
        refine ⟨?_, hy2, hrest⟩
        intro m hm
        rcases List.mem_cons.mp hm with rfl | hm
        · simpa using nodeLtB_asymm hny
        · simpa using nodeLtB_asymm (nodeLtB_lt_of_lt_of_nlt hny (hy2 m hm))
      · simp only [insertNodeRec, hny, if_true, flagsOk, chainFlags]
        refine ⟨rfl, ?_, hfys⟩
        simp [hfy, hny]
    · have hny' : nodeLtB n y = false := by simpa using hny
      obtain ⟨ihs, ihf⟩ := insertFrom_inv n ys y hny' hs hfys
      constructor
      · simpa only [insertNodeRec, hny', Bool.false_eq_true, if_false,
          sortedAsc] using ihs
      · simp only [insertNodeRec, hny', Bool.false_eq_true, if_false, flagsOk]
        exact ⟨hfy, ihf⟩

/-! # Unfolding lemmas for `register_implementation` -/

theorem registerImplementation_noneWeight {W A : Type} [LinearOrder W]
    [Add W] (st : ProviderState W A) (i : Nat) (dep : A)
    {ps : List (Pred W)} (hcw : combinedWeight ps = none) :
    InterfaceProvider.registerImplementation st i dep ps = some st := by
  simp [InterfaceProvider.registerImplementation, hcw]

theorem registerImplementation_some {W A : Type} [LinearOrder W] [Add W]
    (st : ProviderState W A) (i : Nat) (dep : A) {ps : List (Pred W)}
    {w : Option W} {L : List (ImplementationNode W A)}
    (hcw : combinedWeight ps = some w) (hsti : st i = some L)
    (hs : sortedAsc L) :
    InterfaceProvider.registerImplementation st i dep ps =
      some (fun j => if j = i then
        some (insertNodeRec ⟨dep, ps, w, false⟩ L) else st j) := by
  have hb := registerInsert_eq_insertNodeRec
    (⟨dep, ps, w, false⟩ : ImplementationNode W A) L hs
  simp only [InterfaceProvider.registerImplementation, hcw, hsti]
  refine congrArg some (funext fun j => ?_)
  by_cases hj : j = i
  · simp only [hj, if_true]
    exact congrArg some hb
  · simp [hj]

theorem registerImplementation_unknown {W A : Type} [LinearOrder W] [Add W]
    (st : ProviderState W A) (i : Nat) (dep : A) {ps : List (Pred W)}
    {w : Option W} (hcw : combinedWeight ps = some w) (hsti : st i = none) :
    InterfaceProvider.registerImplementation st i dep ps = none := by
  simp [InterfaceProvider.registerImplementation, hcw, hsti]

/-! # The invariant holds in every reachable state (C9 machinery) -/

theorem invAll_empty {W A : Type} [LinearOrder W] :
    InvAll (emptyState W A) := by
  intro i L h
  simp [emptyState] at h

theorem register_invAll {W A : Type} [LinearOrder W]
    (st : ProviderState W A) (i : Nat) (h : InvAll st) :
    InvAll (InterfaceProvider.register st i) := by
  intro j L hj
  by_cases hji : j = i
  · simp only [InterfaceProvider.register, hji, if_true,
      Option.some.injEq] at hj
    subst hj
    exact ⟨List.Pairwise.nil, trivial⟩
  · simp only [InterfaceProvider.register, hji, if_false] at hj
    exact h j L hj

theorem registerImplementation_invAll {W A : Type} [LinearOrder W] [Add W]
    {st st2 : ProviderState W A} {i : Nat} {dep : A} {ps : List (Pred W)}
    (h : InvAll st)
    (hr : InterfaceProvider.registerImplementation st i dep ps = some st2) :
    InvAll st2 := by
  cases hcw : combinedWeight ps with
  | none =>
    rw [registerImplementation_noneWeight st i dep hcw,
      Option.some.injEq] at hr
    subst hr
    exact h
  | some w =>
    cases hsti : st i with
    | none =>
      rw [registerImplementation_unknown st i dep hcw hsti] at hr
      exact Option.noConfusion hr
    | some L =>
      rw [registerImplementation_some st i dep hcw hsti (h i L hsti).1,
        Option.some.injEq] at hr
      subst hr
      intro j M hM
      by_cases hj : j = i
      · simp only [hj, if_true, Option.some.injEq] at hM
        subst hM
        exact insertNodeRec_inv _ L (h i L hsti)
      · simp only [hj, if_false] at hM
        exact h j M hM

theorem applyOps_invAll {W A : Type} [LinearOrder W] [Add W] :
    ∀ (ops : List (RegOp W A)) (st st2 : ProviderState W A), InvAll st →
    applyOps ops st = some st2 → InvAll st2 := by
  intro ops
  induction ops with
  | nil =>
    intro st st2 h hap
    simp only [applyOps, Option.some.injEq] at hap
    subst hap
    exact h
  | cons op ops ih =>
    intro st st2 h hap
    cases op with
    | regInterface i =>
      simp only [applyOps, applyOp] at hap
      exact ih _ st2 (register_invAll st i h) hap
    | regImpl i dep ps =>
      simp only [applyOps, applyOp] at hap
      cases hstep : InterfaceProvider.registerImplementation st i dep ps with
      | none => rw [hstep] at hap; exact Option.noConfusion hap
      | some st1 =>
        rw [hstep] at hap
        exact ih st1 st2 (registerImplementation_invAll h hstep) hap

/-- C9: in every state reachable by `register` / `register_implementation`
calls (weights from a linearly ordered type), each interface's node list
is non-increasing in weight in query-iteration order (the reversal of
the stored list), and every node's `same_weight_as_left` flag is true
iff its left neighbour in the stored order exists and neither node
compares less-than the other; in particular later insertions never
invalidate a stored flag. -/
theorem c9_sorted_invariant {W A : Type} [LinearOrder W] [Add W]
    (ops : List (RegOp W A)) (st : ProviderState W A)
    (h : applyOps ops (emptyState W A) = some st) (i : Nat)
    (L : List (ImplementationNode W A)) (hL : st i = some L) :
    L.reverse.Pairwise (fun a b => nodeLtB a b = false) ∧ flagsOk L := by
  have hinv := applyOps_invAll ops (emptyState W A) st invAll_empty h i L hL
  exact ⟨List.pairwise_reverse.mpr hinv.1, hinv.2⟩

/-! # Evaluation lemmas for `maybe_provide` -/

theorem maybeProvide_unknown {W A : Type} (st : ProviderState W A) (i : Nat)
    (cs : Constraints W) (b : Bool) (h : st i = none) :
    InterfaceProvider.maybeProvide st ⟨i, cs, b⟩ = Except.ok none := by
  simp [InterfaceProvider.maybeProvide, h]

theorem maybeProvide_single_known {W A : Type} (st : ProviderState W A)
    (i : Nat) (cs : Constraints W) (L : List (ImplementationNode W A))
    (h : st i = some L) :
    InterfaceProvider.maybeProvide st ⟨i, cs, false⟩ =
      singleLoop cs L.reverse := by
  simp [InterfaceProvider.maybeProvide, h]

theorem maybeProvide_all_known {W A : Type} (st : ProviderState W A)
    (i : Nat) (cs : Constraints W) (L : List (ImplementationNode W A))
    (h : st i = some L) :
    InterfaceProvider.maybeProvide st ⟨i, cs, true⟩ =
      Except.ok (some (DepValue.many
        ((L.reverse.filter (fun impl => nodeMatch impl cs)).map
          (fun impl => impl.dependency)))) := by
  simp [InterfaceProvider.maybeProvide, h]

/-! # C2: single-result queries over two implementations -/

/-- C2: for a registry holding exactly two implementations of an
interface, if their computed weights are tied (neither less-than the
other) a single-result query conflicts exactly when both match the
constraints and returns the unique match otherwise; if the weights are
strictly ordered the query never raises and returns the strictly
higher-weight match. -/
theorem c2_single_query_tie_conflict {W A : Type} [LinearOrder W] [Add W]
    (ps1 ps2 : List (Pred W)) (d1 d2 : A) (cs : Constraints W)
    (ow1 ow2 : Option W) (st1 st2 : ProviderState W A)
    (h1 : combinedWeight ps1 = some ow1)
    (h2 : combinedWeight ps2 = some ow2)
    (hst1 : InterfaceProvider.registerImplementation
      (InterfaceProvider.register (emptyState W A) 0) 0 d1 ps1 = some st1)
    (hst2 : InterfaceProvider.registerImplementation st1 0 d2 ps2
      = some st2) :
    (wLtB ow1 ow2 = false → wLtB ow2 ow1 = false →
      ((predsMatch ps1 cs = true → predsMatch ps2 cs = true →
        InterfaceProvider.maybeProvide st2 ⟨0, cs, false⟩ =
          Except.error (ProvideErr.conflict d2 d1)) ∧
       (predsMatch ps1 cs = true → predsMatch ps2 cs = false →
        InterfaceProvider.maybeProvide st2 ⟨0, cs, false⟩ =
          Except.ok (some (DepValue.one d1))) ∧
       (predsMatch ps1 cs = false → predsMatch ps2 cs = true →
        InterfaceProvider.maybeProvide st2 ⟨0, cs, false⟩ =
          Except.ok (some (DepValue.one d2))))) ∧
    (wLtB ow1 ow2 = true →
      ((∀ e, InterfaceProvider.maybeProvide st2 ⟨0, cs, false⟩ ≠
          Except.error e) ∧
       (predsMatch ps2 cs = true →
        InterfaceProvider.maybeProvide st2 ⟨0, cs, false⟩ =
          Except.ok (some (DepValue.one d2))) ∧
       (predsMatch ps2 cs = false → predsMatch ps1 cs = true →
        InterfaceProvider.maybeProvide st2 ⟨0, cs, false⟩ =
          Except.ok (some (DepValue.one d1))))) ∧
    (wLtB ow2 ow1 = true →
      ((∀ e, InterfaceProvider.maybeProvide st2 ⟨0, cs, false⟩ ≠
          Except.error e) ∧
       (predsMatch ps1 cs = true →
        InterfaceProvider.maybeProvide st2 ⟨0, cs, false⟩ =
          Except.ok (some (DepValue.one d1))) ∧
       (predsMatch ps1 cs = false → predsMatch ps2 cs = true →
        InterfaceProvider.maybeProvide st2 ⟨0, cs, false⟩ =
          Except.ok (some (DepValue.one d2))))) := by
  have hreg0 : (InterfaceProvider.register (emptyState W A) 0) 0 = some [] := by
    simp [InterfaceProvider.register]
  rw [registerImplementation_some _ 0 d1 h1 hreg0 (by simp [sortedAsc]),
    Option.some.injEq] at hst1
  have hst1at0 : st1 0 = some [setFlag ⟨d1, ps1, ow1, false⟩ false] := by
    rw [← hst1]
    simp [insertNodeRec]
  rw [registerImplementation_some _ 0 d2 h2 hst1at0
    (by simp [sortedAsc]), Option.some.injEq] at hst2
  have hst2at0 : st2 0 = some (insertNodeRec
      (⟨d2, ps2, ow2, false⟩ : ImplementationNode W A)
      [setFlag ⟨d1, ps1, ow1, false⟩ false]) := by
    rw [← hst2]
    simp
  have hmp : InterfaceProvider.maybeProvide st2 ⟨0, cs, false⟩ =
      singleLoop cs ((insertNodeRec (⟨d2, ps2, ow2, false⟩ :
        ImplementationNode W A)
        [setFlag ⟨d1, ps1, ow1, false⟩ false]).reverse) :=
    maybeProvide_single_known st2 0 cs _ hst2at0
  refine ⟨?_, ?_, ?_⟩
  · intro ht12 ht21
    have hlt21 : nodeLtB (⟨d2, ps2, ow2, false⟩ : ImplementationNode W A)
        (setFlag ⟨d1, ps1, ow1, false⟩ false) = false := ht21
    have hlt12 : nodeLtB (setFlag (⟨d1, ps1, ow1, false⟩ :
        ImplementationNode W A) false) ⟨d2, ps2, ow2, false⟩ = false := ht12
    have hIns : insertNodeRec (⟨d2, ps2, ow2, false⟩ :
        ImplementationNode W A) [setFlag ⟨d1, ps1, ow1, false⟩ false] =
        [setFlag ⟨d1, ps1, ow1, false⟩ false,
         setFlag ⟨d2, ps2, ow2, false⟩ true] := by
      simp [insertNodeRec, insertFrom, hlt21, hlt12]
    rw [hmp, hIns]
    refine ⟨?_, ?_, ?_⟩
    · intro hma hmb
      simp [singleLoop, tieCheck, nodeMatch, hma, hmb]
    · intro hma hmb
      simp [singleLoop, tieCheck, nodeMatch, hma, hmb]
    · intro hma hmb
      simp [singleLoop, tieCheck, nodeMatch, hma, hmb]
  · intro ht
    have hlt21 : nodeLtB (⟨d2, ps2, ow2, false⟩ : ImplementationNode W A)
        (setFlag ⟨d1, ps1, ow1, false⟩ false) = false := wLtB_asymm ht
    have hlt12 : nodeLtB (setFlag (⟨d1, ps1, ow1, false⟩ :
        ImplementationNode W A) false) ⟨d2, ps2, ow2, false⟩ = true := ht
    have hIns : insertNodeRec (⟨d2, ps2, ow2, false⟩ :
        ImplementationNode W A) [setFlag ⟨d1, ps1, ow1, false⟩ false] =
        [setFlag ⟨d1, ps1, ow1, false⟩ false,
         setFlag ⟨d2, ps2, ow2, false⟩ false] := by
      simp [insertNodeRec, insertFrom, hlt21, hlt12]
    rw [hmp, hIns]
    refine ⟨?_, ?_, ?_⟩
    · intro e
      cases hm2 : predsMatch ps2 cs <;> cases hm1 : predsMatch ps1 cs <;>
        simp [singleLoop, tieCheck, nodeMatch, hm1, hm2]
    · intro hm2
      simp [singleLoop, tieCheck, nodeMatch, hm2]
    · intro hm2 hm1
      simp [singleLoop, tieCheck, nodeMatch, hm1, hm2]
  · intro ht
    have hlt21 : nodeLtB (⟨d2, ps2, ow2, false⟩ : ImplementationNode W A)
        (setFlag ⟨d1, ps1, ow1, false⟩ false) = true := ht
    have hIns : insertNodeRec (⟨d2, ps2, ow2, false⟩ :
        ImplementationNode W A) [setFlag ⟨d1, ps1, ow1, false⟩ false] =
        [setFlag ⟨d2, ps2, ow2, false⟩ false,
         setFlag ⟨d1, ps1, ow1, false⟩ false] := by
      simp [insertNodeRec, hlt21]
    rw [hmp, hIns]
    refine ⟨?_, ?_, ?_⟩
    · intro e
      cases hm2 : predsMatch ps2 cs <;> cases hm1 : predsMatch ps1 cs <;>
        simp [singleLoop, tieCheck, nodeMatch, hm1, hm2]
    · intro hm1
      simp [singleLoop, tieCheck, nodeMatch, hm1]
    · intro hm1 hm2
      simp [singleLoop, tieCheck, nodeMatch, hm1, hm2]

/-! # C1 machinery: content and tie-order of the indexed build -/

theorem mkNodes_mem {W : Type} [Add W] :
    ∀ (regs : List (List (Pred W))) (k : Nat) (m : ImplementationNode W Nat),
    m ∈ mkNodes k regs ↔ ∃ j ps w, regs.get? j = some ps ∧
      combinedWeight ps = some w ∧
      m = ⟨k + j, ps, w, false⟩ := by
  intro regs
  induction regs with
  | nil => intro k m; simp [mkNodes]
  | cons ps rest ih =>
    intro k m
    cases hcw : combinedWeight ps with
    | none =>
      constructor
      · intro hm
        simp only [mkNodes, hcw] at hm
        obtain ⟨j, ps1, w, hget, hcw1, hmeq⟩ := (ih (k + 1) m).mp hm
        refine ⟨j + 1, ps1, w, by simpa using hget, hcw1, ?_⟩
        rw [hmeq]
        congr 1
        omega
      · rintro ⟨j, ps1, w, hget, hcw1, rfl⟩
        simp only [mkNodes, hcw]
        cases j with
        | zero =>
          simp only [List.get?_cons_zero, Option.some.injEq] at hget
          subst hget
          rw [hcw] at hcw1
          exact Option.noConfusion hcw1
        | succ j2 =>
          apply (ih (k + 1) _).mpr
          refine ⟨j2, ps1, w, by simpa using hget, hcw1, ?_⟩
          congr 1
          omega
    | some w0 =>
      constructor
      · intro hm
        simp only [mkNodes, hcw, List.mem_cons] at hm
        rcases hm with rfl | hm
        · exact ⟨0, ps, w0, by simp, hcw, by simp⟩
        · obtain ⟨j, ps1, w, hget, hcw1, hmeq⟩ := (ih (k + 1) m).mp hm
          refine ⟨j + 1, ps1, w, by simpa using hget, hcw1, ?_⟩
          rw [hmeq]
          congr 1
          omega
      · rintro ⟨j, ps1, w, hget, hcw1, rfl⟩
        simp only [mkNodes, hcw, List.mem_cons]
        cases j with
        | zero =>
          simp only [List.get?_cons_zero, Option.some.injEq] at hget
          subst hget
          rw [hcw] at hcw1
          injection hcw1 with hw
          subst hw
          left
          congr 1
        | succ j2 =>
          right
          apply (ih (k + 1) _).mpr
          refine ⟨j2, ps1, w, by simpa using hget, hcw1, ?_⟩
          congr 1
          omega

theorem mem_insertNodeRec {W A : Type} [LinearOrder W]
    (n : ImplementationNode W A) (L : List (ImplementationNode W A))
    (m : ImplementationNode W A) (hm : m ∈ insertNodeRec n L) :
    (∃ fl, m = setFlag n fl) ∨ m ∈ L := by
  obtain ⟨fl, hperm⟩ := insertNodeRec_perm n L
  rcases List.mem_cons.mp (hperm.mem_iff.mp hm) with h | h
  · exact Or.inl ⟨fl, h⟩
  · exact Or.inr h

theorem insertFrom_pairwiseIdx {W : Type} [LinearOrder W]
    (n : ImplementationNode W Nat) :
    ∀ (ys : List (ImplementationNode W Nat))
      (left : ImplementationNode W Nat),
    nodeLtB n left = false → sortedAsc (left :: ys) →
    PairwiseIdx (left :: ys) →
    (∀ m ∈ left :: ys, m.dependency < n.dependency) →
    PairwiseIdx (left :: insertFrom left n ys) := by
  intro ys
  induction ys with
  | nil =>
    intro left hnl hs hpi hb
    simp only [insertFrom, PairwiseIdx, List.pairwise_cons]
    refine ⟨?_, by simp⟩
    intro m hm
    rcases List.mem_singleton.mp hm with rfl
    intro _
    simpa using hb left (by simp)
  | cons y ys ih =>
    intro left hnl hs hpi hb
    have hs' := hs
    simp only [sortedAsc, List.pairwise_cons] at hs'
    obtain ⟨hleft, hy2, hrest⟩ := hs'
    have hpi' := hpi
    simp only [PairwiseIdx, List.pairwise_cons] at hpi'
    obtain ⟨pleft, py2, prest⟩ := hpi'
    by_cases hny : nodeLtB n y = true
    · simp only [insertFrom, hny, if_true, PairwiseIdx, List.pairwise_cons]
      refine ⟨?_, ?_, py2, prest⟩
      · intro m hm
        rcases List.mem_cons.mp hm with rfl | hm
        · intro _
          simpa using hb left (by simp)
        · exact pleft m hm
      · intro m hm hcond
        rcases List.mem_cons.mp hm with rfl | hm
        · rw [nodeLtB_setFlag_left, hny] at hcond
          exact Bool.noConfusion hcond
        · have hym : nodeLtB m y = false := hy2 m hm
          have hnm : nodeLtB n m = true := nodeLtB_lt_of_lt_of_nlt hny hym
          rw [nodeLtB_setFlag_left, hnm] at hcond
          exact Bool.noConfusion hcond
    · have hny' : nodeLtB n y = false := by simpa using hny
      have hs2 : sortedAsc (y :: ys) := (List.pairwise_cons.mp hs).2
      have hpi2 : PairwiseIdx (y :: ys) := (List.pairwise_cons.mp hpi).2
      have hb2 : ∀ m ∈ y :: ys, m.dependency < n.dependency :=
        fun m hm => hb m (List.mem_cons_of_mem left hm)
      have ihp := ih y hny' hs2 hpi2 hb2
      simp only [PairwiseIdx, List.pairwise_cons] at ihp
      obtain ⟨ihy, ihrest⟩ := ihp
      simp only [insertFrom, hny', Bool.false_eq_true, if_false, PairwiseIdx,
        List.pairwise_cons]
      refine ⟨?_, ihy, ihrest⟩
      intro m hm
      rcases List.mem_cons.mp hm with rfl | hm
      · exact pleft m (by simp)
      · rcases mem_insertFrom n ys y m hm with ⟨fl, rfl⟩ | hm2
        · intro _
          simpa using hb left (by simp)
        · exact pleft m (by simp [hm2])

theorem insertNodeRec_pairwiseIdx {W : Type} [LinearOrder W]
    (n : ImplementationNode W Nat) (L : List (ImplementationNode W Nat))
    (hs : sortedAsc L) (hpi : PairwiseIdx L)
    (hb : ∀ m ∈ L, m.dependency < n.dependency) :
    PairwiseIdx (insertNodeRec n L) := by
  cases L with
  | nil => simp [insertNodeRec, PairwiseIdx]
  | cons y ys =>
    by_cases hny : nodeLtB n y = true
    · simp only [insertNodeRec, hny, if_true, PairwiseIdx, List.pairwise_cons]
      have hy2 : ∀ m ∈ ys, nodeLtB m y = false :=
        (List.pairwise_cons.mp hs).1
      refine ⟨?_, List.pairwise_cons.mp hpi⟩
      intro m hm hcond
      rcases List.mem_cons.mp hm with rfl | hm
      · rw [nodeLtB_setFlag_left, hny] at hcond
        exact Bool.noConfusion hcond
      · have hnm : nodeLtB n m = true :=
          nodeLtB_lt_of_lt_of_nlt hny (hy2 m hm)
        rw [nodeLtB_setFlag_left, hnm] at hcond
        exact Bool.noConfusion hcond
    · have hny' : nodeLtB n y = false := by simpa using hny
      have := insertFrom_pairwiseIdx n ys y hny' hs hpi hb
      simpa [insertNodeRec, hny'] using this

theorem map_eraseFlag_insert_perm {W A : Type} [LinearOrder W]
    (n : ImplementationNode W A) (L : List (ImplementationNode W A)) :
    ((insertNodeRec n L).map eraseFlag).Perm
      (eraseFlag n :: L.map eraseFlag) := by
  obtain ⟨fl, hperm⟩ := insertNodeRec_perm n L
  have hmap := hperm.map eraseFlag
  simpa [eraseFlag] using hmap

theorem buildIndexedGo_spec {W : Type} [LinearOrder W] [Add W] :
    ∀ (rest : List (List (Pred W))) (k : Nat) (st : ProviderState W Nat)
      (L : List (ImplementationNode W Nat)),
    st 0 = some L → Inv L → PairwiseIdx L →
    (∀ n ∈ L, n.dependency < k) →
    ∃ L2, (buildIndexedGo st k rest) 0 = some L2 ∧ Inv L2 ∧
      PairwiseIdx L2 ∧
      (L2.map eraseFlag).Perm (L.map eraseFlag ++ mkNodes k rest) := by
  intro rest
  induction rest with
  | nil =>
    intro k st L hst hinv hpi _
    exact ⟨L, hst, hinv, hpi, by simp [mkNodes]⟩
  | cons ps rest2 ih =>
    intro k st L hst hinv hpi hb
    have hgo : buildIndexedGo st k (ps :: rest2) =
        buildIndexedGo (regImplD st 0 k ps) (k + 1) rest2 := rfl
    cases hcw : combinedWeight ps with
    | none =>
      have hstep : regImplD st 0 k ps = st := by
        simp [regImplD, registerImplementation_noneWeight st 0 k hcw]
      rw [hgo, hstep]
      obtain ⟨L2, h1, h2, h3, h4⟩ := ih (k + 1) st L hst hinv hpi
        (fun n hn => Nat.lt_succ_of_lt (hb n hn))
      refine ⟨L2, h1, h2, h3, ?_⟩
      simpa [mkNodes, hcw] using h4
    | some w =>
      have hstep : regImplD st 0 k ps = (fun j => if j = 0 then
          some (insertNodeRec (⟨k, ps, w, false⟩ : ImplementationNode W Nat)
            L) else st j) := by
        simp [regImplD, registerImplementation_some st 0 k hcw hst hinv.1]
      rw [hgo, hstep]
      have hst1 : (fun j => if j = 0 then
          some (insertNodeRec (⟨k, ps, w, false⟩ : ImplementationNode W Nat)
            L) else st j) 0 =
          some (insertNodeRec (⟨k, ps, w, false⟩ :
            ImplementationNode W Nat) L) := by simp
      have hinv1 : Inv (insertNodeRec
          (⟨k, ps, w, false⟩ : ImplementationNode W Nat) L) :=
        insertNodeRec_inv _ L hinv
      have hpi1 : PairwiseIdx (insertNodeRec
          (⟨k, ps, w, false⟩ : ImplementationNode W Nat) L) :=
        insertNodeRec_pairwiseIdx _ L hinv.1 hpi hb
      have hb1 : ∀ m ∈ insertNodeRec
          (⟨k, ps, w, false⟩ : ImplementationNode W Nat) L,
          m.dependency < k + 1 := by
        intro m hm
        rcases mem_insertNodeRec _ L m hm with ⟨fl, rfl⟩ | hm2
        · simp
        · exact Nat.lt_succ_of_lt (hb m hm2)
      obtain ⟨L2, h1, h2, h3, h4⟩ := ih (k + 1)
        (fun j => if j = 0 then some (insertNodeRec
          (⟨k, ps, w, false⟩ : ImplementationNode W Nat) L) else st j)
        (insertNodeRec (⟨k, ps, w, false⟩ : ImplementationNode W Nat) L)
        hst1 hinv1 hpi1 hb1
      refine ⟨L2, h1, h2, h3, ?_⟩
      have hmap := map_eraseFlag_insert_perm
        (⟨k, ps, w, false⟩ : ImplementationNode W Nat) L
      have htgt : L.map eraseFlag ++ mkNodes k (ps :: rest2) =
          L.map eraseFlag ++
            ((⟨k, ps, w, false⟩ : ImplementationNode W Nat) ::
              mkNodes (k + 1) rest2) := by
        simp [mkNodes, hcw]
      rw [htgt]
      exact h4.trans ((hmap.append_right _).trans List.perm_middle.symm)

/-- C1 (amended): a `wantAll` query over the indexed build returns
exactly the dependency handles of the matching, weighted registrations,
in non-increasing weight order, and among tied weights the
later-registered implementation appears before the earlier-registered
one. -/
theorem c1_query_all_order {W : Type} [LinearOrder W] [Add W]
    (regs : List (List (Pred W))) (cs : Constraints W) :
    ∃ vs : List Nat,
      InterfaceProvider.maybeProvide (buildIndexed regs) ⟨0, cs, true⟩ =
        Except.ok (some (DepValue.many vs)) ∧
      (∀ i, i ∈ vs ↔ ∃ ps, regs.get? i = some ps ∧
        (combinedWeight ps).isSome = true ∧ predsMatch ps cs = true) ∧
      vs.Pairwise (fun i j =>
        wLtB (regWeight regs i) (regWeight regs j) = false ∧
        (wLtB (regWeight regs j) (regWeight regs i) = false → j < i)) := by
  obtain ⟨L2, hL2, hinv, hpi, hperm⟩ := buildIndexedGo_spec regs 0
    (InterfaceProvider.register (emptyState W Nat) 0) []
    (by simp [InterfaceProvider.register])
    ⟨List.Pairwise.nil, trivial⟩ List.Pairwise.nil (by simp)
  have hmemL2 : ∀ n ∈ L2, ∃ j ps w, regs.get? j = some ps ∧
      combinedWeight ps = some w ∧ n.dependency = j ∧
      n.predicates = ps ∧ n.weight = w := by
    intro n hn
    have h1 : eraseFlag n ∈ L2.map eraseFlag := List.mem_map_of_mem _ hn
    have h2 : eraseFlag n ∈ mkNodes 0 regs := by
      have := hperm.mem_iff.mp h1
      simpa using this
    obtain ⟨j, ps, w, hget, hcw, heq⟩ := (mkNodes_mem regs 0 _).mp h2
    refine ⟨j, ps, w, hget, hcw, ?_, ?_, ?_⟩
    · have := congrArg ImplementationNode.dependency heq
      simpa [eraseFlag] using this
    · have := congrArg ImplementationNode.predicates heq
      simpa [eraseFlag] using this
    · have := congrArg ImplementationNode.weight heq
      simpa [eraseFlag] using this
  have hmemL2r : ∀ j ps w, regs.get? j = some ps →
      combinedWeight ps = some w → ∃ n, n ∈ L2 ∧ n.dependency = j ∧
        n.predicates = ps ∧ n.weight = w := by
    intro j ps w hget hcw
    have h2 : (⟨0 + j, ps, w, false⟩ : ImplementationNode W Nat) ∈
        mkNodes 0 regs :=
      (mkNodes_mem regs 0 _).mpr ⟨j, ps, w, hget, hcw, rfl⟩
    have h1 : (⟨0 + j, ps, w, false⟩ : ImplementationNode W Nat) ∈
        L2.map eraseFlag := by
      apply hperm.symm.mem_iff.mp
      simpa using h2
    obtain ⟨n, hn, heq⟩ := List.mem_map.mp h1
    refine ⟨n, hn, ?_, ?_, ?_⟩
    · have := congrArg ImplementationNode.dependency heq
      simpa [eraseFlag] using this
    · have := congrArg ImplementationNode.predicates heq
      simpa [eraseFlag] using this
    · have := congrArg ImplementationNode.weight heq
      simpa [eraseFlag] using this
  have hwf : ∀ n ∈ L2, n.weight = regWeight regs n.dependency := by
    intro n hn
    obtain ⟨j, ps, w, hget, hcw, hd, _, hw⟩ := hmemL2 n hn
    rw [hw, hd]
    have hget2 : regs[j]? = some ps := by simpa using hget
    simp [regWeight, hget2, hcw]
  have hL2b : (buildIndexed regs) 0 = some L2 := hL2
  refine ⟨(L2.reverse.filter (fun impl => nodeMatch impl cs)).map
    (fun impl => impl.dependency),
    maybeProvide_all_known (buildIndexed regs) 0 cs L2 hL2b, ?_, ?_⟩
  · intro i
    constructor
    · intro hi
      obtain ⟨n, hnf, hdep⟩ := List.mem_map.mp hi
      obtain ⟨hnrev, hmatch⟩ := List.mem_filter.mp hnf
      have hnL2 := List.mem_reverse.mp hnrev
      obtain ⟨j, ps, w, hget, hcw, hd, hp, _⟩ := hmemL2 n hnL2
      refine ⟨ps, ?_, ?_, ?_⟩
      · rw [← hdep, hd]
        exact hget
      · rw [hcw]
        rfl
      · have : nodeMatch n cs = predsMatch ps cs := by
          rw [nodeMatch, hp]
        rw [← this]
        exact hmatch
    · rintro ⟨ps, hget, hsome, hmatch⟩
      obtain ⟨w, hcw⟩ := Option.isSome_iff_exists.mp hsome
      obtain ⟨n, hn, hd, hp, _⟩ := hmemL2r i ps w hget hcw
      apply List.mem_map.mpr
      refine ⟨n, List.mem_filter.mpr ⟨List.mem_reverse.mpr hn, ?_⟩, hd⟩
      rw [nodeMatch, hp]
      exact hmatch
  · have hcomb : L2.Pairwise (fun a b => nodeLtB b a = false ∧
        (nodeLtB a b = false → a.dependency < b.dependency)) :=
      List.pairwise_and_iff.mpr ⟨hinv.1, hpi⟩
    have hrev : L2.reverse.Pairwise (fun x y => nodeLtB x y = false ∧
        (nodeLtB y x = false → y.dependency < x.dependency)) :=
      List.pairwise_reverse.mpr hcomb
    have hfil : ((L2.reverse).filter (fun impl => nodeMatch impl cs)).Pairwise
        (fun x y => nodeLtB x y = false ∧
          (nodeLtB y x = false → y.dependency < x.dependency)) :=
      hrev.sublist (List.filter_sublist L2.reverse)
    apply List.pairwise_map.mpr
    refine hfil.imp_of_mem ?_
    intro a b ha hb hab
    have haL2 := List.mem_reverse.mp (List.mem_of_mem_filter ha)
    have hbL2 := List.mem_reverse.mp (List.mem_of_mem_filter hb)
    have hwa := hwf a haL2
    have hwb := hwf b hbL2
    constructor
    · have := hab.1
      rw [nodeLtB, hwa, hwb] at this
      exact this
    · intro hcond
      apply hab.2
      rw [nodeLtB, hwa, hwb]
      exact hcond

/-- C1 counterexample: two implementations with tied weights are
returned newest-first by a `wantAll` query, not oldest-first as the
claim states. -/
theorem c1_tie_order_counterexample :
    InterfaceProvider.maybeProvide
      (buildIndexed [[({ ptype := 0, weight := some 1 } : Pred Nat)],
        [({ ptype := 0, weight := some 1 } : Pred Nat)]]) ⟨0, [], true⟩ =
      Except.ok (some (DepValue.many [1, 0])) ∧
    ([1, 0] : List Nat) ≠ [0, 1] := by
  constructor
  · rfl
  · decide

/-! # C3 machinery: none-weight predicates and query exclusion -/

theorem sumWeightsLoop_none {W : Type} [Add W] :
    ∀ (pre : List (Pred W)) (acc : W) (p0 : Pred W) (post : List (Pred W)),
    (∀ p ∈ pre, p.weight.isSome = true) → p0.weight = none →
    sumWeightsLoop acc (pre ++ p0 :: post) = none := by
  intro pre
  induction pre with
  | nil =>
    intro acc p0 post _ hp0
    simp [sumWeightsLoop, hp0]
  | cons p pre2 ih =>
    intro acc p0 post hpre hp0
    obtain ⟨w, hw⟩ := Option.isSome_iff_exists.mp (hpre p (by simp))
    simp only [List.cons_append, sumWeightsLoop, hw]
    exact ih (acc + w) p0 post (fun q hq => hpre q (by simp [hq])) hp0

theorem combinedWeight_none_of {W : Type} [Add W]
    (pre post : List (Pred W)) (p0 : Pred W)
    (hpre : ∀ p ∈ pre, p.weight.isSome = true) (hp0 : p0.weight = none) :
    combinedWeight (pre ++ p0 :: post) = none := by
  cases pre with
  | nil => simp [combinedWeight, hp0]
  | cons p pre2 =>
    obtain ⟨w, hw⟩ := Option.isSome_iff_exists.mp (hpre p (by simp))
    simp only [List.cons_append, combinedWeight, hw]
    rw [sumWeightsLoop_none pre2 w p0 post
      (fun q hq => hpre q (by simp [hq])) hp0]
    rfl

theorem weightEvalTrace_stops {W : Type} :
    ∀ (pre post : List (Pred W)) (p0 : Pred W),
    (∀ p ∈ pre, p.weight.isSome = true) → p0.weight = none →
    weightEvalTrace (pre ++ p0 :: post) = pre ++ [p0] := by
  intro pre
  induction pre with
  | nil =>
    intro post p0 _ hp0
    simp [weightEvalTrace, hp0]
  | cons p pre2 ih =>
    intro post p0 hpre hp0
    have hw : p.weight.isSome = true := hpre p (by simp)
    simp only [List.cons_append, weightEvalTrace, hw, if_true,
      List.append_eq]
    rw [ih post p0 (fun q hq => hpre q (by simp [hq])) hp0]

theorem tieCheck_ok_dep {W A : Type} (cs : Constraints W)
    (impl0 : ImplementationNode W A) :
    ∀ (rest : List (ImplementationNode W A))
      (cur n : ImplementationNode W A),
    tieCheck cs impl0 cur rest = .ok n → n = impl0 := by
  intro rest
  induction rest with
  | nil =>
    intro cur n h
    by_cases hf : cur.same_weight_as_left = true
    · simp [tieCheck, hf] at h
    · have hf2 : cur.same_weight_as_left = false := by simpa using hf
      simp only [tieCheck, hf2, Bool.false_eq_true, if_false,
        Except.ok.injEq] at h
      exact h.symm
  | cons l rest2 ih =>
    intro cur n h
    by_cases hf : cur.same_weight_as_left = true
    · simp only [tieCheck, hf, if_true] at h
      by_cases hm : nodeMatch l cs = true
      · simp [hm] at h
      · have hm2 : nodeMatch l cs = false := by simpa using hm
        simp only [hm2, Bool.false_eq_true, if_false] at h
        exact ih l n h
    · have hf2 : cur.same_weight_as_left = false := by simpa using hf
      simp only [tieCheck, hf2, Bool.false_eq_true, if_false,
        Except.ok.injEq] at h
      exact h.symm

theorem tieCheck_conflict_deps {W A : Type} (cs : Constraints W)
    (impl0 : ImplementationNode W A) :
    ∀ (rest : List (ImplementationNode W A))
      (cur : ImplementationNode W A) (a b : A),
    tieCheck cs impl0 cur rest = .error (.conflict a b) →
    a = impl0.dependency ∧ ∃ m ∈ rest, b = m.dependency := by
  intro rest
  induction rest with
  | nil =>
    intro cur a b h
    by_cases hf : cur.same_weight_as_left = true
    · simp [tieCheck, hf] at h
    · have hf2 : cur.same_weight_as_left = false := by simpa using hf
      simp [tieCheck, hf2] at h
  | cons l rest2 ih =>
    intro cur a b h
    by_cases hf : cur.same_weight_as_left = true
    · simp only [tieCheck, hf, if_true] at h
      by_cases hm : nodeMatch l cs = true
      · simp only [hm, if_true, Except.error.injEq,
          ProvideErr.conflict.injEq] at h
        exact ⟨h.1.symm, l, by simp, h.2.symm⟩
      · have hm2 : nodeMatch l cs = false := by simpa using hm
        simp only [hm2, Bool.false_eq_true, if_false] at h
        obtain ⟨ha, m, hmm, hb⟩ := ih l a b h
        exact ⟨ha, m, by simp [hmm], hb⟩
    · have hf2 : cur.same_weight_as_left = false := by simpa using hf
      simp [tieCheck, hf2] at h

theorem singleLoop_ok_dep {W A : Type} (cs : Constraints W) :
    ∀ (l : List (ImplementationNode W A)) (v : A),
    singleLoop cs l = .ok (some (.one v)) → ∃ n ∈ l, n.dependency = v := by
  intro l
  induction l with
  | nil => intro v h; simp [singleLoop] at h
  | cons impl rest ih =>
    intro v h
    by_cases hm : nodeMatch impl cs = true
    · simp only [singleLoop, hm, if_true] at h
      cases htc : tieCheck cs impl impl rest with
      | error e => rw [htc] at h; exact absurd h (by simp)
      | ok n =>
        rw [htc] at h
        simp only [Except.ok.injEq, Option.some.injEq,
          DepValue.one.injEq] at h
        have hni := tieCheck_ok_dep cs impl rest impl n htc
        refine ⟨impl, by simp, ?_⟩
        rw [← hni]
        exact h
    · simp only [singleLoop, hm, Bool.false_eq_true, if_false] at h
      obtain ⟨n, hn, hv⟩ := ih v h
      exact ⟨n, by simp [hn], hv⟩

theorem singleLoop_not_many {W A : Type} (cs : Constraints W) :
    ∀ (l : List (ImplementationNode W A)) (vs : List A),
    singleLoop cs l ≠ .ok (some (.many vs)) := by
  intro l
  induction l with
  | nil => intro vs h; simp [singleLoop] at h
  | cons impl rest ih =>
    intro vs h
    by_cases hm : nodeMatch impl cs = true
    · simp only [singleLoop, hm, if_true] at h
      cases htc : tieCheck cs impl impl rest with
      | error e => rw [htc] at h; exact absurd h (by simp)
      | ok n => rw [htc] at h; exact absurd h (by simp)
    · simp only [singleLoop, hm, Bool.false_eq_true, if_false] at h
      exact ih vs h

theorem singleLoop_conflict_deps {W A : Type} (cs : Constraints W) :
    ∀ (l : List (ImplementationNode W A)) (a b : A),
    singleLoop cs l = .error (.conflict a b) →
    (∃ n ∈ l, a = n.dependency) ∧ ∃ m ∈ l, b = m.dependency := by
  intro l
  induction l with
  | nil => intro a b h; simp [singleLoop] at h
  | cons impl rest ih =>
    intro a b h
    by_cases hm : nodeMatch impl cs = true
    · simp only [singleLoop, hm, if_true] at h
      cases htc : tieCheck cs impl impl rest with
      | error e =>
        rw [htc] at h
        simp only [Except.error.injEq] at h
        subst h
        obtain ⟨ha, m, hm2, hb⟩ := tieCheck_conflict_deps cs impl rest
          impl a b htc
        exact ⟨⟨impl, by simp, ha⟩, m, by simp [hm2], hb⟩
      | ok n => rw [htc] at h; exact absurd h (by simp)
    · simp only [singleLoop, hm, Bool.false_eq_true, if_false] at h
      obtain ⟨⟨n, hn, ha⟩, m, hm2, hb⟩ := ih a b h
      exact ⟨⟨n, by simp [hn], ha⟩, m, by simp [hm2], hb⟩

/-- Every dependency handle occurring in a query outcome belongs to a
node stored in the provider state. -/
theorem maybeProvide_dep_mem {W A : Type} (st : ProviderState W A)
    (q : Query W) (d : A)
    (h : depInResult (InterfaceProvider.maybeProvide st q) d) :
    ∃ i L n, st i = some L ∧ n ∈ L ∧ n.dependency = d := by
  cases hsti : st q.interface with
  | none =>
    rw [maybeProvide_unknown st q.interface q.constraints q.all hsti] at h
    · exact absurd h (by simp [depInResult])
  | some L =>
    cases hall : q.all with
    | true =>
      have hq : q = ⟨q.interface, q.constraints, true⟩ := by
        cases q; simp_all
      rw [hq, maybeProvide_all_known st q.interface q.constraints L hsti]
        at h
      simp only [depInResult] at h
      obtain ⟨n, hnf, hdep⟩ := List.mem_map.mp h
      exact ⟨q.interface, L, n,  hsti,
        List.mem_reverse.mp (List.mem_of_mem_filter hnf), hdep⟩
    | false =>
      have hq : q = ⟨q.interface, q.constraints, false⟩ := by
        cases q; simp_all
      rw [hq, maybeProvide_single_known st q.interface q.constraints L hsti]
        at h
      cases hr : singleLoop q.constraints L.reverse with
      | ok r =>
        cases r with
        | none => rw [hr] at h; exact absurd h (by simp [depInResult])
        | some dv =>
          cases dv with
          | many vs => exact absurd hr (singleLoop_not_many _ _ vs)
          | one v =>
            rw [hr] at h
            simp only [depInResult] at h
            obtain ⟨n, hn, hdep⟩ := singleLoop_ok_dep q.constraints
              L.reverse v hr
            exact ⟨q.interface, L, n, hsti, List.mem_reverse.mp hn,
              by rw [hdep, h]⟩
      | error e =>
        cases e with
        | stopIteration => rw [hr] at h; exact absurd h (by simp [depInResult])
        | conflict a b =>
          rw [hr] at h
          simp only [depInResult] at h
          obtain ⟨⟨n, hn, ha⟩, m, hm, hb⟩ := singleLoop_conflict_deps
            q.constraints L.reverse a b hr
          cases h with
          | inl hda =>
            exact ⟨q.interface, L, n, hsti, List.mem_reverse.mp hn,
              by rw [← ha, hda]⟩
          | inr hdb =>
            exact ⟨q.interface, L, m, hsti, List.mem_reverse.mp hm,
              by rw [← hb, hdb]⟩

theorem stateFresh_register {W A : Type} {st : ProviderState W A} {d : A}
    (h : stateFresh st d) (i : Nat) :
    stateFresh (InterfaceProvider.register st i) d := by
  intro j L hj n hn
  by_cases hji : j = i
  · simp only [InterfaceProvider.register, hji, if_true,
      Option.some.injEq] at hj
    subst hj
    simp at hn
  · simp only [InterfaceProvider.register, hji, if_false] at hj
    exact h j L hj n hn

theorem stateFresh_registerImplementation {W A : Type} [LinearOrder W]
    [Add W] {st st2 : ProviderState W A} {d dep : A} {i : Nat}
    {ps : List (Pred W)} (h : stateFresh st d) (hd : dep ≠ d)
    (hr : InterfaceProvider.registerImplementation st i dep ps = some st2) :
    stateFresh st2 d := by
  cases hcw : combinedWeight ps with
  | none =>
    rw [registerImplementation_noneWeight st i dep hcw,
      Option.some.injEq] at hr
    subst hr
    exact h
  | some w =>
    cases hsti : st i with
    | none =>
      rw [registerImplementation_unknown st i dep hcw hsti] at hr
      exact Option.noConfusion hr
    | some L =>
      simp only [InterfaceProvider.registerImplementation, hcw, hsti,
        Option.some.injEq] at hr
      intro j M hM n hn
      rw [← hr] at hM
      by_cases hj : j = i
      · simp only [hj, if_true, Option.some.injEq] at hM
        subst hM
        rcases (mem_listInsertAt _ _ L n).mp hn with rfl | hn2
        · exact hd
        · exact h i L hsti n hn2
      · simp only [hj, if_false] at hM
        exact h j M hM n hn

theorem stateFresh_applyOps {W A : Type} [LinearOrder W] [Add W] :
    ∀ (ops : List (RegOp W A)) (st st2 : ProviderState W A) (d : A),
    stateFresh st d → (∀ op ∈ ops, ¬ opUses d op) →
    applyOps ops st = some st2 → stateFresh st2 d := by
  intro ops
  induction ops with
  | nil =>
    intro st st2 d h _ hap
    simp only [applyOps, Option.some.injEq] at hap
    subst hap
    exact h
  | cons op ops ih =>
    intro st st2 d h hops hap
    cases op with
    | regInterface i =>
      simp only [applyOps, applyOp] at hap
      exact ih _ st2 d (stateFresh_register h i)
        (fun o ho => hops o (by simp [ho])) hap
    | regImpl i dep ps =>
      simp only [applyOps, applyOp] at hap
      cases hstep : InterfaceProvider.registerImplementation st i dep ps with
      | none => rw [hstep] at hap; exact Option.noConfusion hap
      | some st1 =>
        rw [hstep] at hap
        have hd : dep ≠ d := by
          have := hops (RegOp.regImpl i dep ps) (by simp)
          simpa [opUses] using this
        exact ih st1 st2 d (stateFresh_registerImplementation h hd hstep)
          (fun o ho => hops o (by simp [ho])) hap

/-- C3: a predicate list containing a `None`-weight predicate (after
some predicates whose `weight()` is present) makes the combined weight
computation return early: the weight is `None`, evaluation stops at the
first `None`-weight predicate, the provider state is left unchanged (no
node is registered, even for unknown interfaces), and the dependency
handle never appears in any later query outcome as long as no other
registration uses it. -/
theorem c3_none_weight_excluded {W A : Type} [LinearOrder W] [Add W]
    (pre post : List (Pred W)) (p0 : Pred W) (st : ProviderState W A)
    (i : Nat) (dep : A)
    (hpre : ∀ p ∈ pre, p.weight.isSome = true)
    (hp0 : p0.weight = none) :
    combinedWeight (pre ++ p0 :: post) = none ∧
    weightEvalTrace (pre ++ p0 :: post) = pre ++ [p0] ∧
    InterfaceProvider.registerImplementation st i dep (pre ++ p0 :: post) =
      some st ∧
    (stateFresh st dep →
      ∀ ops : List (RegOp W A), (∀ op ∈ ops, ¬ opUses dep op) →
      ∀ st2, applyOps ops st = some st2 →
      ∀ q : Query W,
        ¬ depInResult (InterfaceProvider.maybeProvide st2 q) dep) := by
  have hcw := combinedWeight_none_of pre post p0 hpre hp0
  refine ⟨hcw, weightEvalTrace_stops pre post p0 hpre hp0,
    registerImplementation_noneWeight st i dep hcw, ?_⟩
  intro hfresh ops hops st2 hap q hdep
  obtain ⟨j, L, n, hj, hn, hnd⟩ :=
    maybeProvide_dep_mem st2 q dep hdep
  exact stateFresh_applyOps ops st st2 dep hfresh hops hap j L hj n hn hnd

/-! # C8: unknown interface versus known-but-empty -/

theorem singleLoop_no_match {W A : Type} (cs : Constraints W) :
    ∀ (l : List (ImplementationNode W A)),
    (∀ n ∈ l, nodeMatch n cs = false) → singleLoop cs l = .ok none := by
  intro l
  induction l with
  | nil => intro _; rfl
  | cons impl rest ih =>
    intro h
    have hm := h impl (by simp)
    simp only [singleLoop, hm, Bool.false_eq_true, if_false]
    exact ih (fun n hn => h n (by simp [hn]))

/-- C8 (amended): a `wantAll` query distinguishes an unknown interface
(`none`, the provider's not-found result) from a known interface with no
matching implementation (an empty list); a single-result query does not:
it returns `none` in both situations. -/
theorem c8_query_all_distinguishes {W A : Type} (st : ProviderState W A)
    (i : Nat) (cs : Constraints W) :
    ((InterfaceProvider.maybeProvide st ⟨i, cs, true⟩ = Except.ok none) ↔
      st i = none) ∧
    (∀ L, st i = some L → (∀ n ∈ L, nodeMatch n cs = false) →
      InterfaceProvider.maybeProvide st ⟨i, cs, true⟩ =
        Except.ok (some (DepValue.many [])) ∧
      InterfaceProvider.maybeProvide st ⟨i, cs, false⟩ = Except.ok none) := by
  constructor
  · constructor
    · intro h
      cases hsti : st i with
      | none => rfl
      | some L =>
        rw [maybeProvide_all_known st i cs L hsti] at h
        simp at h
    · intro h
      exact maybeProvide_unknown st i cs true h
  · intro L hst hnm
    constructor
    · rw [maybeProvide_all_known st i cs L hst]
      have hfil : L.reverse.filter (fun impl => nodeMatch impl cs) = [] := by
        rw [List.filter_eq_nil_iff]
        intro n hn
        simp [hnm n (List.mem_reverse.mp hn)]
      rw [hfil]
      rfl
    · rw [maybeProvide_single_known st i cs L hst]
      exact singleLoop_no_match cs L.reverse
        (fun n hn => hnm n (List.mem_reverse.mp hn))

/-- C8 counterexample: with interface `0` registered (and empty) and
interface `1` never registered, single-result queries return the same
outcome (`none`) for both, so the wantAll=false case of the claim's
distinguishability fails. -/
theorem c8_single_query_counterexample :
    InterfaceProvider.maybeProvide
      (InterfaceProvider.register (emptyState Nat Nat) 0)
      ⟨0, [], false⟩ = Except.ok none ∧
    InterfaceProvider.maybeProvide
      (InterfaceProvider.register (emptyState Nat Nat) 0)
      ⟨1, [], false⟩ = Except.ok none :=
  ⟨rfl, rfl⟩

/-! # C7: the weight of an implementation without predicates -/

/-- C7 (amended): an implementation registered with an empty predicate
list receives the registry's sentinel weight `None` — no weight model is
consulted — and the node ordering places that sentinel strictly below
every present weight while tying it with other `None` weights. -/
theorem c7_empty_predicates_weight {W A : Type} [LinearOrder W] [Add W]
    (st : ProviderState W A) (i : Nat) (dep : A)
    (L : List (ImplementationNode W A)) (hst : st i = some L)
    (hs : sortedAsc L) :
    (∃ st2, InterfaceProvider.registerImplementation st i dep [] =
        some st2 ∧
      ∃ L2, st2 i = some L2 ∧ ∃ n ∈ L2, n.dependency = dep ∧
        n.predicates = ([] : List (Pred W)) ∧ n.weight = none) ∧
    (∀ w : W, wLtB none (some w) = true) ∧
    wLtB (none : Option W) none = false ∧
    (∀ w : W, wLtB (some w) none = false) := by
  refine ⟨?_, fun w => rfl, rfl, fun w => rfl⟩
  have hcw : combinedWeight ([] : List (Pred W)) = some none := rfl
  refine ⟨_, registerImplementation_some st i dep hcw hst hs, ?_⟩
  refine ⟨insertNodeRec ⟨dep, [], none, false⟩ L, by simp, ?_⟩
  obtain ⟨fl, hperm⟩ := insertNodeRec_perm
    (⟨dep, [], none, false⟩ : ImplementationNode W A) L
  refine ⟨setFlag ⟨dep, [], none, false⟩ fl, ?_, rfl, rfl, rfl⟩
  exact hperm.symm.subset (by simp)

/-- C7 counterexample: registering with zero predicates stores the
sentinel weight `None`; the spec's weight-model computation
(`combinedWeightSpec`, here with the spec's own example model where
`of_neutral` yields `0`) requires `some natOfNeutral` instead. -/
theorem c7_neutral_weight_counterexample :
    (regImplD (InterfaceProvider.register (emptyState Nat Nat) 0) 0 7 []) 0 =
      some [⟨7, [], none, false⟩] ∧
    combinedWeightSpec natOfNeutral ([] : List (Pred Nat)) =
      some (some natOfNeutral) ∧
    (none : Option Nat) ≠ some natOfNeutral :=
  ⟨rfl, rfl, by decide⟩

/-! # C4/C5: the lazy merge dispatch -/

theorem dictGet_append {K V : Type} [DecidableEq K] :
    ∀ (l1 l2 : List (K × V)) (t : K),
    dictGet (l1 ++ l2) t =
      match dictGet l1 t with
      | some v => some v
      | none => dictGet l2 t := by
  intro l1
  induction l1 with
  | nil => intro l2 t; rfl
  | cons kv rest ih =>
    intro l2 t
    by_cases h : kv.1 = t
    · simp [dictGet, h]
    · simp [dictGet, h, ih]

theorem dictGet_eq_none_iff {K V : Type} [DecidableEq K] :
    ∀ (l : List (K × V)) (t : K),
    dictGet l t = none ↔ t ∉ l.map Prod.fst := by
  intro l
  induction l with
  | nil => intro t; simp [dictGet]
  | cons kv rest ih =>
    intro t
    by_cases h : kv.1 = t
    · simp [dictGet, h]
    · simp [dictGet, h, ih, Ne.symm h]

theorem dictGet_of_mem_nodup {K V : Type} [DecidableEq K] :
    ∀ (l : List (K × V)) (t : K) (v : V),
    (l.map Prod.fst).Nodup → (t, v) ∈ l → dictGet l t = some v := by
  intro l
  induction l with
  | nil => intro t v _ h; simp at h
  | cons kv rest ih =>
    intro t v hnd hm
    rcases List.mem_cons.mp hm with rfl | hm2
    · simp [dictGet]
    · have ht : kv.1 ≠ t := by
        intro he
        have hmem : t ∈ rest.map Prod.fst :=
          List.mem_map.mpr ⟨(t, v), hm2, rfl⟩
        have hnd2 := hnd
        rw [List.map_cons] at hnd2
        have hnotin := (List.nodup_cons.mp hnd2).1
        rw [he] at hnotin
        exact hnotin hmem
      simp only [dictGet, ht, if_false]
      exact ih t v (List.nodup_cons.mp hnd).2 hm2

theorem drainLoop_ok {K F : Type} [DecidableEq K] :
    ∀ (pend : List ((F → K) × F)) (fns : List (K × F)),
    (pend.map (fun kf => kf.1 kf.2)).Nodup →
    (∀ kf ∈ pend, dictGet fns (kf.1 kf.2) = none) →
    LazyDispatch.drainLoop fns pend =
      .ok (fns ++ pend.map (fun kf => (kf.1 kf.2, kf.2))) := by
  intro pend
  induction pend with
  | nil => intro fns _ _; simp [LazyDispatch.drainLoop]
  | cons kf rest ih =>
    intro fns hnd hnone
    have hhd : dictGet fns (kf.1 kf.2) = none := hnone kf (by simp)
    simp only [LazyDispatch.drainLoop, hhd]
    rw [ih (fns ++ [(kf.1 kf.2, kf.2)]) (List.nodup_cons.mp hnd).2 ?_]
    · simp
    · intro kg hkg
      rw [dictGet_append]
      rw [hnone kg (by simp [hkg])]
      have hne : (kf.1 kf.2) ≠ (kg.1 kg.2) := by
        intro he
        have : kg.1 kg.2 ∈ rest.map (fun kf2 => kf2.1 kf2.2) :=
          List.mem_map.mpr ⟨kg, hkg, rfl⟩
        rw [← he] at this
        exact (List.nodup_cons.mp hnd).1 this
      simp [dictGet, hne]

theorem drainLoop_err {K F : Type} [DecidableEq K] :
    ∀ (pend : List ((F → K) × F)) (fns : List (K × F)),
    (¬ (pend.map (fun kf => kf.1 kf.2)).Nodup ∨
      ∃ kf ∈ pend, dictGet fns (kf.1 kf.2) ≠ none) →
    ∃ e, LazyDispatch.drainLoop fns pend = .error e := by
  intro pend
  induction pend with
  | nil =>
    intro fns h
    rcases h with h | ⟨kf, hkf, _⟩
    · rw [List.map_nil] at h
      exact absurd List.nodup_nil h
    · simp at hkf
  | cons kf rest ih =>
    intro fns h
    cases hget : dictGet fns (kf.1 kf.2) with
    | some prev =>
      exact ⟨(kf.1 kf.2, kf.2, prev), by
        simp [LazyDispatch.drainLoop, hget]⟩
    | none =>
      have hstep : LazyDispatch.drainLoop fns (kf :: rest) =
          LazyDispatch.drainLoop (fns ++ [(kf.1 kf.2, kf.2)]) rest := by
        simp [LazyDispatch.drainLoop, hget]
      rw [hstep]
      apply ih
      rcases h with h | ⟨kg, hkg, hne⟩
      · rw [List.map_cons, List.nodup_cons] at h
        by_cases hmem : kf.1 kf.2 ∈ rest.map (fun kf2 => kf2.1 kf2.2)
        · obtain ⟨kg, hkg, hkey⟩ := List.mem_map.mp hmem
          refine Or.inr ⟨kg, hkg, ?_⟩
          rw [dictGet_append, hkey]
          rcases hget2 : dictGet fns (kf.1 kf.2) with _ | v
          · simp [dictGet]
          · simp
        · refine Or.inl ?_
          intro hnd
          exact h ⟨hmem, hnd⟩
      · rcases List.mem_cons.mp hkg with rfl | hkg2
        · exact absurd hget hne
        · refine Or.inr ⟨kg, hkg2, ?_⟩
          rw [dictGet_append]
          rcases hget3 : dictGet fns (kg.1 kg.2) with _ | v
          · exact absurd hget3 hne
          · simp

/-- C4 (amended): `get` drains the whole pending queue exactly once and
destructively, popping entries from the right end of the deque (newest
first), inserting each entry into the resolved map under the key its
extractor computes.  With distinct, unresolved keys, the drain succeeds,
the pending queue is left empty, every drained entry is afterwards
resolvable under its key, and a second `get` has nothing left to
drain. -/
theorem c4_get_drains {K F : Type} [DecidableEq K] (d : LazyDispatch K F)
    (item : K)
    (h1 : (d.lazy_registrations.map (fun kf => kf.1 kf.2)).Nodup)
    (h2 : ∀ kf ∈ d.lazy_registrations,
      dictGet d.functions (kf.1 kf.2) = none) :
    ∃ d2 r, d.get item = .ok (d2, r) ∧
      d2.lazy_registrations = [] ∧
      d2.functions = d.functions ++
        (d.lazy_registrations.reverse.map (fun kf => (kf.1 kf.2, kf.2))) ∧
      (∀ kf ∈ d.lazy_registrations,
        dictGet d2.functions (kf.1 kf.2) = some kf.2) ∧
      r = dictGet d2.functions item ∧
      LazyDispatch.drainSeq d = d.lazy_registrations.reverse ∧
      (∀ item2, d2.get item2 = .ok (d2, dictGet d2.functions item2)) := by
  have hrev1 : (d.lazy_registrations.reverse.map
      (fun kf => kf.1 kf.2)).Nodup := by
    rw [List.map_reverse]
    exact List.nodup_reverse.mpr h1
  have hrev2 : ∀ kf ∈ d.lazy_registrations.reverse,
      dictGet d.functions (kf.1 kf.2) = none :=
    fun kf hkf => h2 kf (List.mem_reverse.mp hkf)
  have hdl := drainLoop_ok d.lazy_registrations.reverse d.functions
    hrev1 hrev2
  refine ⟨⟨d.name, d.functions ++ (d.lazy_registrations.reverse.map
      (fun kf => (kf.1 kf.2, kf.2))), []⟩,
    dictGet (d.functions ++ (d.lazy_registrations.reverse.map
      (fun kf => (kf.1 kf.2, kf.2)))) item, ?_, rfl, rfl, ?_, rfl, rfl, ?_⟩
  · simp only [LazyDispatch.get, LazyDispatch.drainSeq, hdl]
  · intro kf hkf
    rw [dictGet_append, h2 kf hkf]
    apply dictGet_of_mem_nodup
    · rw [List.map_map]
      exact hrev1
    · exact List.mem_map.mpr ⟨kf, List.mem_reverse.mpr hkf, rfl⟩
  · intro item2
    rfl

/-- C5: registering two merge functions whose extractors resolve to the
same key never raises at registration time (`register` only appends to
the pending deque), but the first later `get` always raises the
duplicate error; and a key never registered resolves to `none` after a
successful drain. -/
theorem c5_duplicate_deferred {K F : Type} [DecidableEq K]
    (d : LazyDispatch K F) :
    (∀ (key : F → K) (func : F),
      (d.register key func).functions = d.functions ∧
      (d.register key func).lazy_registrations =
        d.lazy_registrations ++ [(key, func)]) ∧
    (¬ (d.lazy_registrations.map (fun kf => kf.1 kf.2)).Nodup →
      ∀ item, ∃ e, d.get item = .error e) ∧
    ((d.lazy_registrations.map (fun kf => kf.1 kf.2)).Nodup →
      (∀ kf ∈ d.lazy_registrations,
        dictGet d.functions (kf.1 kf.2) = none) →
      ∀ t : K, t ∉ d.lazy_registrations.map (fun kf => kf.1 kf.2) →
      dictGet d.functions t = none →
      ∃ d2, d.get t = .ok (d2, none)) := by
  refine ⟨fun key func => ⟨rfl, rfl⟩, ?_, ?_⟩
  · intro hdup item
    have hrevdup : ¬ (d.lazy_registrations.reverse.map
        (fun kf => kf.1 kf.2)).Nodup := by
      rw [List.map_reverse, List.nodup_reverse]
      exact hdup
    obtain ⟨e, he⟩ := drainLoop_err d.lazy_registrations.reverse
      d.functions (Or.inl hrevdup)
    exact ⟨e, by simp [LazyDispatch.get, LazyDispatch.drainSeq, he]⟩
  · intro hnd hnone t ht hfns
    have hrev1 : (d.lazy_registrations.reverse.map
        (fun kf => kf.1 kf.2)).Nodup := by
      rw [List.map_reverse]
      exact List.nodup_reverse.mpr hnd
    have hrev2 : ∀ kf ∈ d.lazy_registrations.reverse,
        dictGet d.functions (kf.1 kf.2) = none :=
      fun kf hkf => hnone kf (List.mem_reverse.mp hkf)
    have hdl := drainLoop_ok d.lazy_registrations.reverse d.functions
      hrev1 hrev2
    refine ⟨⟨d.name, d.functions ++ (d.lazy_registrations.reverse.map
        (fun kf => (kf.1 kf.2, kf.2))), []⟩, ?_⟩
    have hr : dictGet (d.functions ++ (d.lazy_registrations.reverse.map
        (fun kf => (kf.1 kf.2, kf.2)))) t = none := by
      rw [dictGet_append, hfns]
      apply (dictGet_eq_none_iff _ t).mpr
      rw [List.map_map]
      intro hmem
      apply ht
      have : t ∈ (d.lazy_registrations.map
          (fun kf => kf.1 kf.2)).reverse := by
        rw [← List.map_reverse]
        exact hmem
      exact List.mem_reverse.mp this
    simp only [LazyDispatch.get, LazyDispatch.drainSeq, hdl, hr]

/-- C4 counterexample: the drain pops the pending deque from the right
end.  With two registrations resolving to key `0`, registered in the
order `1` then `2`, the duplicate error reports `(key, func, previous) =
(0, 1, 2)`: the newer function `2` was already drained into the map when
the older `1` was processed — the opposite of oldest-first
consumption. -/
theorem c4_drain_order_counterexample :
    (((LazyDispatch.mk "merge" [] []).register (fun _ => 0) 1).register
      (fun _ => 0) 2).get 0 =
      Except.error (0, 1, 2) ∧
    ((0, 1, 2) : Nat × Nat × Nat) ≠ (0, 2, 1) :=
  ⟨rfl, by decide⟩

/-! # C6: duplicate predicate types and the merge reducer -/

/-- C6: registering an implementation with two predicate instances of
the same concrete type fails with the configuration error when the
merge dispatch resolves no reducer for that type, and succeeds when a
reducer is resolved, the node carrying the single merged predicate and
the merged predicate's weight (not the sum of the two original
weights). -/
theorem c6_duplicate_predicate_merge {W A : Type} [LinearOrder W] [Add W]
    (p1 p2 : Pred W) (t : Nat) (hp1 : p1.ptype = t) (hp2 : p2.ptype = t)
    (disp : LazyDispatch Nat (Pred W → Pred W → Pred W))
    (st : ProviderState W A) (i : Nat) (dep : A)
    (L : List (ImplementationNode W A)) (hst : st i = some L)
    (hs : sortedAsc L) :
    (∀ d2, disp.get t = .ok (d2, none) →
      libRegisterImplementation disp st i dep [p1, p2] =
        .error (.missingReducer t)) ∧
    (∀ d2 m w, disp.get t = .ok (d2, some m) →
      (m p1 p2).weight = some w →
      ∃ st2, libRegisterImplementation disp st i dep [p1, p2] =
        .ok (d2, st2) ∧
        st2 i = some (insertNodeRec (⟨dep, [m p1 p2], some w, false⟩ :
          ImplementationNode W A) L)) := by
  subst hp1
  constructor
  · intro d2 hget
    simp [libRegisterImplementation, dedupLoop, dictGet, hp2, hget]
  · intro d2 m w hget hw
    have hcw : combinedWeight [m p1 p2] = some (some w) := by
      simp [combinedWeight, sumWeightsLoop, hw]
    have hded : dedupLoop disp [] [p1, p2] =
        .ok (d2, [(p1.ptype, m p1 p2)]) := by
      simp [dedupLoop, dictGet, dictSet, hp2, hget]
    refine ⟨fun j => if j = i then some (insertNodeRec
      (⟨dep, [m p1 p2], some w, false⟩ : ImplementationNode W A) L)
      else st j, ?_, by simp⟩
    simp only [libRegisterImplementation, hded]
    rw [show ([(p1.ptype, m p1 p2)].map Prod.snd) = [m p1 p2] from rfl]
    rw [registerImplementation_some st i dep hcw hst hs]

/-! # C10: QualifiedBy -/

theorem mem_insertSortedNat (x : Nat) :
    ∀ (l : List Nat) (y : Nat), y ∈ insertSortedNat x l ↔ y = x ∨ y ∈ l := by
  intro l
  induction l with
  | nil => intro y; simp [insertSortedNat]
  | cons a l ih =>
    intro y
    by_cases h : x ≤ a
    · simp [insertSortedNat, h]
    · simp only [insertSortedNat, h, if_false, List.mem_cons, ih]
      tauto

theorem sorted_insertSortedNat (x : Nat) :
    ∀ (l : List Nat), l.Pairwise (· ≤ ·) →
    (insertSortedNat x l).Pairwise (· ≤ ·) := by
  intro l
  induction l with
  | nil => intro _; simp [insertSortedNat]
  | cons a l ih =>
    intro hs
    obtain ⟨ha, hl⟩ := List.pairwise_cons.mp hs
    by_cases h : x ≤ a
    · simp only [insertSortedNat, h, if_true, List.pairwise_cons]
      exact ⟨fun m hm => by
        rcases List.mem_cons.mp hm with rfl | hm
        · exact h
        · exact le_trans h (ha m hm), List.pairwise_cons.mp hs⟩
    · simp only [insertSortedNat, h, if_false, List.pairwise_cons]
      refine ⟨?_, ih hl⟩
      intro m hm
      rcases (mem_insertSortedNat x l m).mp hm with rfl | hm
      · omega
      · exact ha m hm

theorem sorted_sortNats : ∀ (l : List Nat),
    (sortNats l).Pairwise (· ≤ ·) := by
  intro l
  induction l with
  | nil => simp [sortNats]
  | cons a l ih => exact sorted_insertSortedNat a (sortNats l) ih

theorem mem_sortNats : ∀ (l : List Nat) (y : Nat),
    y ∈ sortNats l ↔ y ∈ l := by
  intro l
  induction l with
  | nil => intro y; simp [sortNats]
  | cons a l ih =>
    intro y
    simp only [sortNats, mem_insertSortedNat, ih, List.mem_cons]

theorem dedupAdj_mem : ∀ (l : List Nat) (y : Nat),
    y ∈ dedupAdj l ↔ y ∈ l
  | [], y => by simp [dedupAdj]
  | [a], y => by simp [dedupAdj]
  | a :: b :: l, y => by
    by_cases hab : a = b
    · subst hab
      have h1 : dedupAdj (a :: a :: l) = dedupAdj (a :: l) := by
        simp [dedupAdj]
      rw [h1, dedupAdj_mem (a :: l) y]
      simp only [List.mem_cons]
      tauto
    · simp only [dedupAdj, hab, if_false, List.mem_cons,
        dedupAdj_mem (b :: l) y]

theorem dedupAdj_sorted : ∀ (l : List Nat), l.Pairwise (· ≤ ·) →
    (dedupAdj l).Pairwise (· < ·)
  | [], _ => by simp [dedupAdj]
  | [a], _ => by simp [dedupAdj]
  | a :: b :: l, hs => by
    obtain ⟨ha, hs2⟩ := List.pairwise_cons.mp hs
    by_cases hab : a = b
    · subst hab
      simp only [dedupAdj, if_true]
      exact dedupAdj_sorted (a :: l) hs2
    · simp only [dedupAdj, hab, if_false, List.pairwise_cons]
      refine ⟨?_, dedupAdj_sorted (b :: l) hs2⟩
      intro m hm
      have hm2 := (dedupAdj_mem (b :: l) m).mp hm
      have hab2 : a < b := by
        have := ha b (by simp)
        omega
      rcases List.mem_cons.mp hm2 with rfl | hm3
      · exact hab2
      · have := ha m (by simp [hm3])
        have := (List.pairwise_cons.mp hs2).1 m hm3
        omega

theorem evalLoop_subset : ∀ (a b : List Nat), evalLoop a b = true →
    ∀ x ∈ a, x ∈ b
  | [], _, _ => by simp
  | a :: as, [], h => by simp [evalLoop] at h
  | a :: as, b :: bs, h => by
    by_cases hab : a = b
    · subst hab
      simp only [evalLoop, if_true] at h
      intro x hx
      rcases List.mem_cons.mp hx with rfl | hx
      · simp
      · exact List.mem_cons_of_mem a (evalLoop_subset as bs h x hx)
    · simp only [evalLoop, hab, if_false] at h
      intro x hx
      exact List.mem_cons_of_mem b (evalLoop_subset (a :: as) bs h x hx)

theorem evalLoop_of_subset : ∀ (b a : List Nat), a.Pairwise (· < ·) →
    b.Pairwise (· < ·) → (∀ x ∈ a, x ∈ b) → evalLoop a b = true := by
  intro b
  induction b with
  | nil =>
    intro a _ _ hsub
    cases a with
    | nil => rfl
    | cons x xs => exact absurd (hsub x (by simp)) (by simp)
  | cons b bs ih =>
    intro a sa sb hsub
    cases a with
    | nil => rfl
    | cons a0 as =>
      obtain ⟨ha0, sas⟩ := List.pairwise_cons.mp sa
      obtain ⟨hb0, sbs⟩ := List.pairwise_cons.mp sb
      by_cases hab : a0 = b
      · subst hab
        simp only [evalLoop, if_true]
        apply ih as sas sbs
        intro x hx
        have hx2 := hsub x (List.mem_cons_of_mem a0 hx)
        rcases List.mem_cons.mp hx2 with rfl | hx3
        · exact absurd (ha0 x hx) (lt_irrefl x)
        · exact hx3
      · simp only [evalLoop, hab, if_false]
        apply ih (a0 :: as) sa sbs
        intro x hx
        have hx2 := hsub x hx
        rcases List.mem_cons.mp hx2 with rfl | hx3
        · exfalso
          rcases List.mem_cons.mp hx with rfl | hx4
          · exact hab rfl
          · have h1 : a0 < x := ha0 x hx4
            have h2 := hsub a0 (by simp)
            rcases List.mem_cons.mp h2 with h3 | h3
            · exact hab h3
            · have h4 : x < a0 := hb0 a0 h3
              omega
        · exact hx3

theorem qbInit_ok_eq {qs : List Obj} {Q : QualifiedBy}
    (hq : qbInit qs = .ok Q) :
    Q.qualifiers = dedupAdj (sortNats (qs.map Obj.oid)) := by
  by_cases h0 : qs.length = 0
  · simp [qbInit, h0] at hq
  · by_cases h1 : qs.any (fun q => q.isNoneObj || q.isBuiltinInstance) = true
    · simp [qbInit, h0, h1] at hq
    · have h1b : qs.any (fun q => q.isNoneObj || q.isBuiltinInstance) =
          false := by simpa using h1
      simp only [qbInit, h0, if_false, h1b, Bool.false_eq_true,
        Except.ok.injEq] at hq
      rw [← hq]

/-- C10: `QualifiedBy` — the constructor rejects an empty qualifier
list and `None`/builtin-instance qualifiers and stores the id-sorted,
identity-deduplicated qualifiers; `evaluate` is false on `None` and is
true on a constructed predicate exactly when every constructor-supplied
qualifier of the constraint occurs, by identity, among the predicate's
qualifiers. -/
theorem c10_qualified_by_evaluate (qs ps : List Obj) (Q P : QualifiedBy)
    (hq : qbInit qs = .ok Q) (hp : qbInit ps = .ok P) :
    (qbInit ([] : List Obj) = .error .valueError) ∧
    (∀ l : List Obj, ∀ q ∈ l,
      (q.isNoneObj = true ∨ q.isBuiltinInstance = true) →
      ∃ e, qbInit l = .error e) ∧
    Q.qualifiers.Pairwise (· < ·) ∧
    (∀ y, y ∈ Q.qualifiers ↔ ∃ o ∈ qs, o.oid = y) ∧
    Q.evaluate none = false ∧
    (Q.evaluate (some P) = true ↔ ∀ o ∈ qs, o.oid ∈ P.qualifiers) := by
  have hQsorted : Q.qualifiers.Pairwise (· < ·) := by
    rw [qbInit_ok_eq hq]
    exact dedupAdj_sorted _ (sorted_sortNats _)
  have hPsorted : P.qualifiers.Pairwise (· < ·) := by
    rw [qbInit_ok_eq hp]
    exact dedupAdj_sorted _ (sorted_sortNats _)
  have hQmem : ∀ y, y ∈ Q.qualifiers ↔ ∃ o ∈ qs, o.oid = y := by
    intro y
    rw [qbInit_ok_eq hq, dedupAdj_mem, mem_sortNats]
    simp [eq_comm]
  refine ⟨rfl, ?_, hQsorted, hQmem, rfl, ?_⟩
  · intro l q hql hbad
    by_cases h0 : l.length = 0
    · exact ⟨.valueError, by simp [qbInit, h0]⟩
    · have hany : l.any (fun q => q.isNoneObj || q.isBuiltinInstance) =
          true := by
        apply List.any_eq_true.mpr
        refine ⟨q, hql, ?_⟩
        rcases hbad with h | h <;> simp [h]
      exact ⟨.typeError, by simp [qbInit, h0, hany]⟩
  · constructor
    · intro hev
      by_cases hlen : P.qualifiers.length < Q.qualifiers.length
      · simp [QualifiedBy.evaluate, hlen] at hev
      · simp only [QualifiedBy.evaluate, hlen, if_false] at hev
        intro o ho
        exact evalLoop_subset Q.qualifiers P.qualifiers hev o.oid
          ((hQmem o.oid).mpr ⟨o, ho, rfl⟩)
    · intro hsub
      have hsub2 : ∀ y ∈ Q.qualifiers, y ∈ P.qualifiers := by
        intro y hy
        obtain ⟨o, ho, rfl⟩ := (hQmem y).mp hy
        exact hsub o ho
      have hnd : Q.qualifiers.Nodup :=
        hQsorted.imp (fun h => Nat.ne_of_lt h)
      have hlen : ¬ P.qualifiers.length < Q.qualifiers.length := by
        have := (List.subperm_of_subset hnd hsub2).length_le
        omega
      simp only [QualifiedBy.evaluate, hlen, if_false]
      exact evalLoop_of_subset P.qualifiers Q.qualifiers hQsorted
        hPsorted hsub2

/-! # Concrete instantiations of the theorems with hypotheses -/

theorem c2_witness :
    combinedWeight [wPred1] = some (some 1) ∧
    combinedWeight [wPred2] = some (some 1) ∧
    InterfaceProvider.registerImplementation
      (InterfaceProvider.register (emptyState Nat Nat) 0) 0 5 [wPred1] =
      some wState1 ∧
    InterfaceProvider.registerImplementation wState1 0 7 [wPred2] =
      some wState2 ∧
    wLtB (some (1 : Nat)) (some 1) = false ∧
    predsMatch [wPred1] [] = true ∧
    predsMatch [wPred2] [] = true ∧
    InterfaceProvider.maybeProvide wState2 ⟨0, [], false⟩ =
      Except.error (ProvideErr.conflict 7 5) :=
  ⟨rfl, rfl, rfl, rfl, rfl, rfl, rfl,
    ((c2_single_query_tie_conflict [wPred1] [wPred2] 5 7 [] (some 1)
      (some 1) wState1 wState2 rfl rfl rfl rfl).1 rfl rfl).1 rfl rfl⟩

theorem c3_witness :
    (∀ p ∈ ([] : List (Pred Nat)), p.weight.isSome = true) ∧
    (⟨2, none⟩ : Pred Nat).weight = none ∧
    combinedWeight ([] ++ (⟨2, none⟩ : Pred Nat) :: [wPred1]) = none ∧
    weightEvalTrace ([] ++ (⟨2, none⟩ : Pred Nat) :: [wPred1]) =
      [] ++ [(⟨2, none⟩ : Pred Nat)] ∧
    InterfaceProvider.registerImplementation (emptyState Nat Nat) 0 9
      ([] ++ (⟨2, none⟩ : Pred Nat) :: [wPred1]) =
      some (emptyState Nat Nat) ∧
    ¬ depInResult
      (InterfaceProvider.maybeProvide (emptyState Nat Nat) ⟨0, [], true⟩)
      9 := by
  have h := c3_none_weight_excluded [] [wPred1] ⟨2, none⟩
    (emptyState Nat Nat) 0 9 (by simp) rfl
  exact ⟨by simp, rfl, h.1, h.2.1, h.2.2.1,
    h.2.2.2 (fun i L hL => by simp [emptyState] at hL) [] (by simp)
      (emptyState Nat Nat) rfl ⟨0, [], true⟩⟩

theorem c4_witness :
    (wDispatch.lazy_registrations.map (fun kf => kf.1 kf.2)).Nodup ∧
    (∀ kf ∈ wDispatch.lazy_registrations,
      dictGet wDispatch.functions (kf.1 kf.2) = none) ∧
    (∃ d2 r, wDispatch.get 0 = .ok (d2, r) ∧
      d2.lazy_registrations = [] ∧
      d2.functions = wDispatch.functions ++
        (wDispatch.lazy_registrations.reverse.map
          (fun kf => (kf.1 kf.2, kf.2))) ∧
      (∀ kf ∈ wDispatch.lazy_registrations,
        dictGet d2.functions (kf.1 kf.2) = some kf.2) ∧
      r = dictGet d2.functions 0 ∧
      LazyDispatch.drainSeq wDispatch =
        wDispatch.lazy_registrations.reverse ∧
      (∀ item2, d2.get item2 = .ok (d2, dictGet d2.functions item2))) :=
  ⟨by decide, fun kf _ => rfl,
    c4_get_drains wDispatch 0 (by decide) (fun kf _ => rfl)⟩

theorem c5_witness :
    (¬ (wDupDispatch.lazy_registrations.map
      (fun kf => kf.1 kf.2)).Nodup) ∧
    (∃ e, wDupDispatch.get 0 = .error e) :=
  ⟨by decide, (c5_duplicate_deferred wDupDispatch).2.1 (by decide) 0⟩

theorem c6_witness :
    (⟨0, some 1⟩ : Pred Nat).ptype = 0 ∧
    (⟨0, some 2⟩ : Pred Nat).ptype = 0 ∧
    (InterfaceProvider.register (emptyState Nat Nat) 0) 0 = some [] ∧
    wMergeDispatch.get 0 =
      .ok (⟨"predicate_merge", [(0, wMerge)], []⟩, some wMerge) ∧
    (wMerge ⟨0, some 1⟩ ⟨0, some 2⟩).weight = some 10 ∧
    some (10 : Nat) ≠ some (1 + 2) ∧
    (∃ st2, libRegisterImplementation wMergeDispatch
        (InterfaceProvider.register (emptyState Nat Nat) 0) 0 5
        [⟨0, some 1⟩, ⟨0, some 2⟩] =
        .ok (⟨"predicate_merge", [(0, wMerge)], []⟩, st2) ∧
      st2 0 = some (insertNodeRec
        (⟨5, [wMerge ⟨0, some 1⟩ ⟨0, some 2⟩], some 10, false⟩ :
          ImplementationNode Nat Nat) [])) :=
  ⟨rfl, rfl, rfl, rfl, rfl, by decide,
    (c6_duplicate_predicate_merge ⟨0, some 1⟩ ⟨0, some 2⟩ 0 rfl rfl
      wMergeDispatch (InterfaceProvider.register (emptyState Nat Nat) 0)
      0 5 [] rfl List.Pairwise.nil).2
      ⟨"predicate_merge", [(0, wMerge)], []⟩ wMerge 10 rfl rfl⟩

theorem c7_witness :
    (InterfaceProvider.register (emptyState Nat Nat) 0) 0 = some [] ∧
    ((∃ st2, InterfaceProvider.registerImplementation
        (InterfaceProvider.register (emptyState Nat Nat) 0) 0 7 [] =
        some st2 ∧
      ∃ L2, st2 0 = some L2 ∧ ∃ n ∈ L2, n.dependency = 7 ∧
        n.predicates = ([] : List (Pred Nat)) ∧ n.weight = none) ∧
    (∀ w : Nat, wLtB none (some w) = true) ∧
    wLtB (none : Option Nat) none = false ∧
    (∀ w : Nat, wLtB (some w) none = false)) :=
  ⟨rfl, c7_empty_predicates_weight
    (InterfaceProvider.register (emptyState Nat Nat) 0) 0 7 [] rfl
    List.Pairwise.nil⟩

theorem c8_witness :
    (InterfaceProvider.register (emptyState Nat Nat) 0) 0 = some [] ∧
    (∀ n ∈ ([] : List (ImplementationNode Nat Nat)),
      nodeMatch n ([] : Constraints Nat) = false) ∧
    InterfaceProvider.maybeProvide
      (InterfaceProvider.register (emptyState Nat Nat) 0) ⟨0, [], true⟩ =
      Except.ok (some (DepValue.many [])) ∧
    InterfaceProvider.maybeProvide
      (InterfaceProvider.register (emptyState Nat Nat) 0) ⟨0, [], false⟩ =
      Except.ok none :=
  ⟨rfl, by simp,
    ((c8_query_all_distinguishes
      (InterfaceProvider.register (emptyState Nat Nat) 0) 0 []).2 []
      rfl (by simp)).1,
    ((c8_query_all_distinguishes
      (InterfaceProvider.register (emptyState Nat Nat) 0) 0 []).2 []
      rfl (by simp)).2⟩

theorem c9_witness :
    applyOps wOps (emptyState Nat Nat) = some wStateC9 ∧
    wStateC9 0 = some [⟨5, [wPred1], some 1, false⟩] ∧
    (([(⟨5, [wPred1], some 1, false⟩ : ImplementationNode Nat Nat)]
        : List (ImplementationNode Nat Nat)).reverse.Pairwise
        (fun a b => nodeLtB a b = false) ∧
      flagsOk [(⟨5, [wPred1], some 1, false⟩ :
        ImplementationNode Nat Nat)]) :=
  ⟨rfl, rfl, c9_sorted_invariant wOps wStateC9 rfl 0
    [⟨5, [wPred1], some 1, false⟩] rfl⟩

theorem c10_witness :
    qbInit wQB1 = .ok ⟨[10]⟩ ∧
    qbInit wQB2 = .ok ⟨[4, 10]⟩ ∧
    ((qbInit ([] : List Obj) = .error .valueError) ∧
    (∀ l : List Obj, ∀ q ∈ l,
      (q.isNoneObj = true ∨ q.isBuiltinInstance = true) →
      ∃ e, qbInit l = .error e) ∧
    (⟨[10]⟩ : QualifiedBy).qualifiers.Pairwise (· < ·) ∧
    (∀ y, y ∈ (⟨[10]⟩ : QualifiedBy).qualifiers ↔
      ∃ o ∈ wQB1, o.oid = y) ∧
    (⟨[10]⟩ : QualifiedBy).evaluate none = false ∧
    ((⟨[10]⟩ : QualifiedBy).evaluate (some ⟨[4, 10]⟩) = true ↔
      ∀ o ∈ wQB1, o.oid ∈ (⟨[4, 10]⟩ : QualifiedBy).qualifiers)) :=
  ⟨rfl, rfl, c10_qualified_by_evaluate wQB1 wQB2 ⟨[10]⟩ ⟨[4, 10]⟩ rfl rfl⟩

end Antidote
